import Mathlib

/-!
A shallow embedding of the experimental production planner/scheduler in
`src/python/pants/engine/exp/scheduler.py`, together with theorems settling
the frozen claims about it.

Modelling conventions:
* Product types, planner identities, goal names, configurations, opaque leaf
  data and subject primaries are all drawn from `Nat`; this loses nothing the
  scheduler observes, since the source only compares these values for
  equality (and, for a configuration, compares its *type* against consumed
  product types — we conflate a configuration with its type, as every claim
  is insensitive to the distinction).
* Python `dict`s keyed by promises are modelled as association lists keyed by
  the promise equality key `(product_type, subject.primary, configuration)`,
  with insert-at-front and first-match lookup, which gives exactly the
  overwrite-on-collision semantics of a `dict` whose keys hash and compare by
  that triple.
* Python `set`s of product types are lists used only through membership;
  updates append the elements not already present.
* The recursive procedures (`_apply_product_requirements` and friends, and
  `ExecutionGraph.walk`) are given an explicit fuel argument; `none` models a
  Python execution that does not return normally (unbounded recursion /
  RecursionError, or the `AttributeError` from walking an unregistered
  promise).  `some` results coincide with what the Python code returns.
* `Products.for_subject` (from `products.py`, an external collaborator of
  this module) is abstracted as an explicit list of native product types
  passed wherever the source consults it.
-/

namespace PantsScheduler

/-- Product types are identified by type object; modelled as `Nat`. -/
abbrev PType := Nat

/-- Identity of a planner instance (the registry treats planners as opaque
dictionary keys). -/
abbrev PlannerId := Nat

/-- A configuration object; conflated with its type (see module comment). -/
abbrev Config := Nat

/-- `Subject`: a pair of a primary and an optional alternate.  Equality and
hash of the Python class depend only on `primary`; Lean's structural equality
is finer, so every observation below goes through `primary` where the source
compares subjects. -/
structure Subject where
  primary : Nat
  alternate : Option Nat
deriving DecidableEq, Repr

/-- The equality/hash key of `Promise`: `(product_type, subject.primary,
configuration)` — `Promise._key` in the source. -/
abbrev PromiseKey := PType × Nat × Option Config

mutual
/-- A node of a plan's input tree: opaque leaf data, a string (a Python
string is iterable, but `Plan._is_iterable` explicitly excludes strings, so
the walkers treat it as a leaf; we keep its character list to state that),
a `Promise` (recorded by its equality key), a mapping, or a sequence. -/
inductive InputValue where
  | leaf : Nat → InputValue
  | str : List Nat → InputValue
  | prom : PromiseKey → InputValue
  | mapping : InputEntries → InputValue
  | seqv : InputList → InputValue
deriving DecidableEq, Repr

/-- Entries of a mapping node (input names modelled as `Nat`). -/
inductive InputEntries where
  | nil : InputEntries
  | cons : Nat → InputValue → InputEntries → InputEntries
deriving DecidableEq, Repr

/-- Elements of a sequence node. -/
inductive InputList where
  | nil : InputList
  | cons : InputValue → InputList → InputList
deriving DecidableEq, Repr
end

/-- `TaskCategorization`: either a free function or a `Task` subclass;
`lift_native_product` is the distinguished function used by the scheduler's
synthetic native-product plans. -/
inductive TaskTag where
  | func : Nat → TaskTag
  | taskType : Nat → TaskTag
  | liftNativeProduct : TaskTag
deriving DecidableEq, Repr

/-- `Plan`: task categorization, subjects, and the keyword-input mapping. -/
structure Plan where
  task : TaskTag
  subjects : List Subject
  inputs : InputEntries
deriving DecidableEq, Repr

mutual
/-- `iter_promises` inside `Plan.promises`: the promises reachable in an
input value.  A string falls through every branch (`_is_iterable` excludes
strings), so it contributes nothing. -/
def iterPromisesV : InputValue → List PromiseKey
  | .leaf _ => []
  | .str _ => []
  | .prom k => [k]
  | .mapping es => iterPromisesE es
  | .seqv vs => iterPromisesL vs

/-- `iter_promises` over the values of a mapping node. -/
def iterPromisesE : InputEntries → List PromiseKey
  | .nil => []
  | .cons _ v rest => iterPromisesV v ++ iterPromisesE rest

/-- `iter_promises` over the elements of a sequence node. -/
def iterPromisesL : InputList → List PromiseKey
  | .nil => []
  | .cons v rest => iterPromisesV v ++ iterPromisesL rest
end

/-- `Plan.promises`: the set of unique promises in the plan's inputs.  Python
collects them into a `set`; we determinize its iteration order as
deduplicated discovery order. -/
def planPromises (p : Plan) : List PromiseKey :=
  (iterPromisesE p.inputs).dedup

mutual
/-- `bind_products` inside `Plan.bind`: replace every promise leaf by the
product it resolved to, rebuild mappings and sequences, and return every
other leaf (including strings) unchanged. -/
def bindV (pm : PromiseKey → Nat) : InputValue → InputValue
  | .leaf n => .leaf n
  | .str s => .str s
  | .prom k => .leaf (pm k)
  | .mapping es => .mapping (bindE pm es)
  | .seqv vs => .seqv (bindL pm vs)

/-- `bind_products` over mapping entries. -/
def bindE (pm : PromiseKey → Nat) : InputEntries → InputEntries
  | .nil => .nil
  | .cons k v rest => .cons k (bindV pm v) (bindE pm rest)

/-- `bind_products` over sequence elements. -/
def bindL (pm : PromiseKey → Nat) : InputList → InputList
  | .nil => .nil
  | .cons v rest => .cons (bindV pm v) (bindL pm rest)
end

/-- `Binding`: the task paired with its fully bound inputs. -/
structure Binding where
  task : TaskTag
  inputs : InputEntries
deriving DecidableEq, Repr

/-- `Plan.bind`. -/
def planBind (p : Plan) (pm : PromiseKey → Nat) : Binding :=
  ⟨p.task, bindE pm p.inputs⟩

/-- Insert a key/value pair into a list sorted by `Nat` key (ascending). -/
def insertByKey (e : Nat × InputValue) : List (Nat × InputValue) → List (Nat × InputValue)
  | [] => [e]
  | x :: xs => if e.1 ≤ x.1 then e :: x :: xs else x :: insertByKey e xs

/-- Sort mapping entries by key, as `sorted(...)` does in `Plan._key`
(mapping keys are unique, so sorting by key alone matches Python's tuple
sort). -/
def sortByKey : List (Nat × InputValue) → List (Nat × InputValue)
  | [] => []
  | x :: xs => insertByKey x (sortByKey xs)

/-- Rebuild normalized `(key, value)` pairs as a sequence of two-element
tuples. -/
def pairsToIL : List (Nat × InputValue) → InputList
  | [] => .nil
  | (k, v) :: rest => .cons (.seqv (.cons (.leaf k) (.cons v .nil))) (pairsToIL rest)

mutual
/-- The `hashable` normalization of `Plan._key`: mapping nodes become the
sorted tuple of `(key, hashable(value))` pairs, sequences become tuples of
normalized elements, every other node is returned as is (a pair is itself a
tuple, hence the two-element sequence below). -/
def normV : InputValue → InputValue
  | .leaf n => .leaf n
  | .str s => .str s
  | .prom k => .prom k
  | .mapping es => .seqv (pairsToIL (sortByKey (normE es)))
  | .seqv vs => .seqv (normL vs)

/-- Normalize each entry's value, keeping the entry list as a key/value list
ready for sorting. -/
def normE : InputEntries → List (Nat × InputValue)
  | .nil => []
  | .cons k v rest => (k, normV v) :: normE rest

/-- Normalize each element of a sequence node. -/
def normL : InputList → InputList
  | .nil => .nil
  | .cons v rest => .cons (normV v) (normL rest)
end

/-- Insert into a sorted `Nat` list. -/
def insertNat (n : Nat) : List Nat → List Nat
  | [] => [n]
  | x :: xs => if n ≤ x then n :: x :: xs else x :: insertNat n xs

/-- Sort a `Nat` list ascending. -/
def sortNat : List Nat → List Nat
  | [] => []
  | x :: xs => insertNat x (sortNat xs)

/-- The canonical form of `frozenset` of subjects under subject equality
(which compares primaries only): the sorted, deduplicated primaries. -/
def subjectsKey (ss : List Subject) : List Nat :=
  sortNat (ss.map (·.primary)).dedup

/-- `Plan._key`: the structural identity `(task, subjects, normalized
inputs)` driving `Plan.__eq__` and `Plan.__hash__`. -/
abbrev PlanKey := TaskTag × List Nat × InputValue

/-- `Plan._key()`. -/
def planKey (p : Plan) : PlanKey :=
  (p.task, subjectsKey p.subjects, normV (.mapping p.inputs))

/-- `Plan.__eq__`: structural equality through `_key`. -/
def planEqb (p q : Plan) : Bool :=
  decide (planKey p = planKey q)

/-- The `Promise` class with its stored (wrapped) subject; the scheduler-side
development below works with `PromiseKey`, which is the quotient the source's
`__eq__`/`__hash__` observe. -/
structure PromiseObj where
  product_type : PType
  subject : Subject
  configuration : Option Config
deriving DecidableEq, Repr

/-- `Promise._key`. -/
def PromiseObj.key (p : PromiseObj) : PromiseKey :=
  (p.product_type, p.subject.primary, p.configuration)

/-- `Promise.__eq__`: `isinstance` check plus `_key` comparison (the type
check is enforced here by the type of the arguments). -/
def promiseObjEq (p q : PromiseObj) : Bool :=
  decide (p.key = q.key)

/-- `Promise.__hash__` is `hash(self._key())`: the hash is a function of the
key alone, so we model it by the key itself. -/
def promiseObjHash (p : PromiseObj) : PromiseKey :=
  p.key

/-- `Promise.rebind`: same product type and configuration, new subject. -/
def PromiseObj.rebind (p : PromiseObj) (s : Subject) : PromiseObj :=
  ⟨p.product_type, s, p.configuration⟩

/-- C5: Promise identity ignores the alternate subject: promises that differ
only in the alternate of their subject are equal, have equal hashes, and the
equality/hash key is exactly the triple `(product_type, subject.primary,
configuration)`. -/
theorem promise_identity_ignores_alternate (P x : Nat) (a b : Option Nat) (c : Option Config) :
    promiseObjEq ⟨P, ⟨x, a⟩, c⟩ ⟨P, ⟨x, b⟩, c⟩ = true ∧
    promiseObjHash ⟨P, ⟨x, a⟩, c⟩ = promiseObjHash ⟨P, ⟨x, b⟩, c⟩ ∧
    PromiseObj.key ⟨P, ⟨x, a⟩, c⟩ = (P, x, c) := by
  refine ⟨?_, rfl, rfl⟩
  simp [promiseObjEq, PromiseObj.key]

/-- C9: the input-tree walkers treat strings as leaves: a string contributes
no promises (its characters are never descended into), `bind` returns it
unchanged, and a plan whose input is a string has no promises at all — while
mappings and sequences are traversed recursively. -/
theorem strings_are_leaves (s : List Nat) (pm : PromiseKey → Nat) (t : TaskTag)
    (ss : List Subject) (nm : Nat) (k : PromiseKey) (es : InputEntries) (vs : InputList) :
    iterPromisesV (.str s) = [] ∧
    bindV pm (.str s) = .str s ∧
    planPromises ⟨t, ss, .cons nm (.str s) .nil⟩ = [] ∧
    iterPromisesV (.prom k) = [k] ∧
    iterPromisesV (.mapping es) = iterPromisesE es ∧
    iterPromisesV (.seqv vs) = iterPromisesL vs ∧
    bindV pm (.mapping es) = .mapping (bindE pm es) ∧
    bindV pm (.seqv vs) = .seqv (bindL pm vs) := by
  refine ⟨rfl, rfl, ?_, rfl, rfl, rfl, rfl, rfl⟩
  simp [planPromises, iterPromisesE, iterPromisesV]

/-! ## The planner registry and the requirement solver -/

/-- A task planner as the scheduler consumes it: its identity, its
`product_types` map (output product type to input requirements in DNF:
outer list ORed clauses, inner list ANDed product types), and its `plan`
callback.  Concrete planners live outside this module (the class is
abstract), so `plan` is an oracle from the request to an optional plan. -/
structure PlannerSpec where
  id : PlannerId
  productTypes : List (PType × List (List PType))
  planFn : PType → Nat → Option Config → Option Plan

/-- First-match association-list lookup (a Python `dict` read). -/
def lookupPT {α : Type} : List (PType × α) → PType → Option α
  | [], _ => none
  | (k, v) :: rest, q => if k = q then some v else lookupPT rest q

/-- The `Planners` registry, built once from the installed planners. -/
structure Registry where
  planners : List PlannerSpec

/-- `self._product_requirements[O].items()`: the `(planner, DNF)` pairs
registered for output `O`, in planner installation order. -/
def Registry.reqsFor (reg : Registry) (O : PType) : List (PlannerId × List (List PType)) :=
  reg.planners.filterMap fun p => (lookupPT p.productTypes O).map fun dnf => (p.id, dnf)

/-- `self._output_products`: every output type any planner can emit. -/
def Registry.outputProducts (reg : Registry) : List PType :=
  reg.planners.flatMap fun p => p.productTypes.map Prod.fst

/-- The two accumulators the solver mutates: `fully_consumed` (a set of
product types) and `partially_consumed_candidates` (product type to planner
to the set of unconsumed requirements). -/
structure SolverState where
  fullyConsumed : List PType
  partiallyConsumed : List (PType × List (PlannerId × List PType))
deriving DecidableEq, Repr

/-- `set.update`: add the elements of `xs` not already present. -/
def addAll (s xs : List PType) : List PType :=
  xs.foldl (fun acc x => if x ∈ acc then acc else acc ++ [x]) s

/-- `partially_consumed_candidates[c][planner].update(unconsumed)` at the
inner (per-planner) level. -/
def addToPlannerMap (planner : PlannerId) (unconsumed : List PType) :
    List (PlannerId × List PType) → List (PlannerId × List PType)
  | [] => [(planner, addAll [] unconsumed)]
  | (p, s) :: rest =>
    if p = planner then (p, addAll s unconsumed) :: rest
    else (p, s) :: addToPlannerMap planner unconsumed rest

/-- `partially_consumed_candidates[c][planner].update(unconsumed)`. -/
def addToPC (c : PType) (planner : PlannerId) (unconsumed : List PType) :
    List (PType × List (PlannerId × List PType)) → List (PType × List (PlannerId × List PType))
  | [] => [(c, addToPlannerMap planner unconsumed [])]
  | (p, m) :: rest =>
    if p = c then (p, addToPlannerMap planner unconsumed m) :: rest
    else (p, m) :: addToPC c planner unconsumed rest

/-- Record a partially satisfied clause: for every consumed requirement, the
planner's unconsumed requirements of that clause. -/
def recordPartials (planner : PlannerId) (consumed unconsumed : List PType)
    (pc : List (PType × List (PlannerId × List PType))) :
    List (PType × List (PlannerId × List PType)) :=
  consumed.foldl (fun acc c => addToPC c planner unconsumed acc) pc

/-- The list comprehension `[self._apply_product_requirements(req, ...) for
req in anded_clause]`, threading the accumulators left to right;
`f` is the recursive solver call (`_apply_product_requirements` at the
enclosing recursion depth). -/
def evalClauseF (f : PType → SolverState → Option (Bool × SolverState)) :
    List PType → SolverState → Option (List Bool × SolverState)
  | [], st => some ([], st)
  | r :: rs, st =>
    match f r st with
    | none => none
    | some (b, st') =>
      match evalClauseF f rs st' with
      | none => none
      | some (bs, st'') => some (b :: bs, st'')

/-- `Planners._apply_product_requirement_clauses`: try each ORed clause in
order; a fully matched clause marks its requirements fully consumed and
returns true at once; a partially matched clause records, for every consumed
requirement, the planner's unconsumed requirements, and the loop goes on. -/
def applyClausesF (f : PType → SolverState → Option (Bool × SolverState)) (planner : PlannerId) :
    List (List PType) → SolverState → Option (Bool × SolverState)
  | [], st => some (false, st)
  | clause :: rest, st =>
    match evalClauseF f clause st with
    | none => none
    | some (bs, st') =>
      if bs.count true = clause.length then
        some (true, { st' with fullyConsumed := addAll st'.fullyConsumed clause })
      else if 0 < bs.count true then
        applyClausesF f planner rest
          { st' with
            partiallyConsumed :=
              recordPartials planner
                ((clause.zip bs).filterMap fun rb => if rb.2 then some rb.1 else none)
                ((clause.zip bs).filterMap fun rb => if rb.2 then none else some rb.1)
                st'.partiallyConsumed }
      else applyClausesF f planner rest st'

/-- The loop `for planner, ored_clauses in self._product_requirements[O]`,
ORing each planner's clause evaluation into the accumulator (`matched |=`
runs every planner). -/
def applyPlannersF (f : PType → SolverState → Option (Bool × SolverState)) :
    List (PlannerId × List (List PType)) → Bool → SolverState →
    Option (Bool × SolverState)
  | [], acc, st => some (acc, st)
  | (planner, clauses) :: rest, acc, st =>
    match applyClausesF f planner clauses st with
    | none => none
    | some (m, st') => applyPlannersF f rest (acc || m) st'

/-- `Planners._apply_product_requirements`, with fuel counting recursion
depth: `none` models the unbounded recursion the source runs into on cyclic
requirement graphs (nothing in the source memoizes or marks in-progress
types).  Directly satisfied inputs are producible; types no planner outputs
are not; otherwise every planner registered for the output is tried and the
reports are ORed. -/
def applyPR (reg : Registry) : Nat → PType → List PType → SolverState →
    Option (Bool × SolverState)
  | 0, _, _, _ => none
  | fuel + 1, O, inputs, st =>
    if O ∈ inputs then some (true, st)
    else if O ∉ reg.outputProducts then some (false, st)
    else applyPlannersF (fun O' st' => applyPR reg fuel O' inputs st') (reg.reqsFor O) false st

/-! ## `planners_for`, `produced_types_for_subject` -/

/-- The generator `Planners.for_product_type_and_subject`: walk the planners
registered for `product_type` in installation order; for each, evaluate its
DNF with a fresh `fully_consumed` set but a shared
`partially_consumed_candidates` accumulator; keep the planner when the DNF
was satisfied and, if a configuration was requested, its type is among the
planner's fully consumed products. -/
def plannersForLoop (reg : Registry) (fuel : Nat) (product_type : PType)
    (inputs : List PType) (configuration : Option Config) :
    List PlannerSpec → List (PType × List (PlannerId × List PType)) →
    Option (List PlannerSpec)
  | [], _ => some []
  | p :: rest, pc =>
    match lookupPT p.productTypes product_type with
    | none => plannersForLoop reg fuel product_type inputs configuration rest pc
    | some clauses =>
      match applyClausesF (fun O st => applyPR reg fuel O inputs st) p.id clauses ⟨[], pc⟩ with
      | none => none
      | some (ok, st') =>
        match plannersForLoop reg fuel product_type inputs configuration rest
            st'.partiallyConsumed with
        | none => none
        | some ps =>
          let keep := ok && (match configuration with
            | none => true
            | some c => decide (c ∈ st'.fullyConsumed))
          some (if keep then p :: ps else ps)

/-- `Planners.for_product_type_and_subject`, from a fresh accumulator. -/
def plannersFor (reg : Registry) (fuel : Nat) (product_type : PType)
    (inputs : List PType) (configuration : Option Config) : Option (List PlannerSpec) :=
  plannersForLoop reg fuel product_type inputs configuration reg.planners []

/-- The loop of `produced_types_for_subject`: solve each candidate output
with the shared accumulators, collecting the producible ones in order. -/
def producedLoop (reg : Registry) (fuel : Nat) (inputs : List PType) :
    List PType → SolverState → Option (List PType × SolverState)
  | [], st => some ([], st)
  | O :: rest, st =>
    match applyPR reg fuel O inputs st with
    | none => none
    | some (b, st') =>
      match producedLoop reg fuel inputs rest st' with
      | none => none
      | some (ps, st'') => some (if b then O :: ps else ps, st'')

/-- The payload of `PartiallyConsumedInputsError`: the loop variable at raise
time (the last output type attempted; `none` can only arise for an empty
candidate list, where the source would not raise at all) and the offending
partial-consumption map. -/
structure PCError where
  lastOutput : Option PType
  offending : List (PType × List (PlannerId × List PType))
deriving DecidableEq, Repr

/-- `Planners.produced_types_for_subject`: run the solver over all candidate
outputs with shared accumulators; afterwards any partially consumed product
that was never fully consumed raises `PartiallyConsumedInputsError`,
otherwise the producible subset is returned in input order. -/
def producedTypesForSubject (reg : Registry) (fuel : Nat) (inputs outputs : List PType) :
    Option (Except PCError (List PType)) :=
  match producedLoop reg fuel inputs outputs ⟨[], []⟩ with
  | none => none
  | some (producible, st) =>
    let offending := st.partiallyConsumed.filter fun e => e.1 ∉ st.fullyConsumed
    if offending.isEmpty then some (.ok producible)
    else some (.error ⟨outputs.getLast?, offending⟩)

/-! ## `ProductMapper` -/

/-- The promise-to-plan `dict`, most recent registration first. -/
abbrev Mapper := List (PromiseKey × Plan)

/-- `dict` lookup: the most recently stored plan for a promise key. -/
def mapperGet : Mapper → PromiseKey → Option Plan
  | [], _ => none
  | (k, p) :: rest, q => if k = q then some p else mapperGet rest q

/-- `dict` store: `self._promises[promise] = plan` (silently overwrites). -/
def mapperPut (m : Mapper) (k : PromiseKey) (p : Plan) : Mapper :=
  (k, p) :: m

/-- The loop body of `register_promises`: index the plan under this
subject's promise and track the primary promise. -/
def registerStep (product_type : PType) (configuration : Option Config) (plan : Plan)
    (primary_subject : Option Nat) (acc : Mapper × Option PromiseKey) (s : Subject) :
    Mapper × Option PromiseKey :=
  let pk : PromiseKey := (product_type, s.primary, configuration)
  (mapperPut acc.1 pk plan,
   if primary_subject = some s.primary then some pk else acc.2)

/-- `ProductMapper.register_promises`: store a promise for every subject of
the plan (`registerStep` is the loop body); remember the promise for the
primary subject when one is supplied; raise `InvalidRegistrationError`
(modelled by `Except.error ()`) when a primary subject was supplied but
matched no subject of the plan. -/
def registerPromises (m : Mapper) (product_type : PType) (plan : Plan)
    (primary_subject : Option Nat) (configuration : Option Config) :
    Except Unit (Mapper × Option PromiseKey) :=
  let res := plan.subjects.foldl (registerStep product_type configuration plan primary_subject)
    (m, none)
  if primary_subject.isSome && res.2.isNone then .error () else .ok res

/-- `ProductMapper.promised`. -/
def promised (m : Mapper) (pk : PromiseKey) : Option Plan :=
  mapperGet m pk

/-! ## `LocalScheduler.promise` -/

/-- The producer recorded with a candidate plan: a real planner, or the
synthetic `NoPlanner` used when lifting a native product. -/
inductive PlannerTag where
  | planner : PlannerId → PlannerTag
  | noPlanner : PlannerTag
deriving DecidableEq, Repr

/-- The `SchedulingError` hierarchy raised by `promise`: no producers,
conflicting producers (with the candidate planners), or the generic rewrap of
a registration failure. -/
inductive SchedError where
  | noProducers : PType → Nat → SchedError
  | conflictingProducers : PType → Nat → List PlannerTag → SchedError
  | schedulingFailure : PType → Nat → SchedError
deriving DecidableEq, Repr

/-- `OrderedSet.add` under `Plan` equality (which is `_key` equality). -/
def addPlanOnce (l : List Plan) (plan : Plan) : List Plan :=
  if l.any fun q => planEqb q plan then l else l ++ [plan]

/-- `self._plans_by_product_type_by_planner[planner][product_type].add(plan)`. -/
def updatePlansBy (planner : PlannerTag) (product_type : PType) (plan : Plan) :
    List ((PlannerTag × PType) × List Plan) → List ((PlannerTag × PType) × List Plan)
  | [] => [((planner, product_type), addPlanOnce [] plan)]
  | (k, l) :: rest =>
    if k = (planner, product_type) then (k, addPlanOnce l plan) :: rest
    else (k, l) :: updatePlansBy planner product_type plan rest

/-- The mutable state of a `LocalScheduler`: its `ProductMapper` and the
per-session plan index feeding finalization. -/
structure SchedState where
  mapper : Mapper
  plansBy : List ((PlannerTag × PType) × List Plan)
deriving DecidableEq, Repr

/-- The synthetic plan lifting a native product off the subject:
`Plan(func_or_task_type=lift_native_product, subjects=(subject,),
subject=subject, product_type=product_type)` (input keys `0`/`1` stand for
the names `subject`/`product_type`). -/
def liftNativePlan (subject : Nat) (product_type : PType) : Plan :=
  { task := .liftNativeProduct
  , subjects := [⟨subject, none⟩]
  , inputs := .cons 0 (.leaf subject) (.cons 1 (.leaf product_type) .nil) }

/-- The candidate list `promise` builds once the fast path misses: a
`(planner, plan)` pair for every applicable planner whose `plan` call
returned non-null, followed by one synthetic `(NoPlanner, lift)` pair per
native product equal to the requested type. -/
def candidatePlans (reg : Registry) (fuel : Nat) (subject : Nat) (product_type : PType)
    (configuration : Option Config) (native : List PType) :
    Option (List (PlannerTag × Plan)) :=
  match plannersFor reg fuel product_type native configuration with
  | none => none
  | some ps =>
    some ((ps.filterMap fun p =>
        (p.planFn product_type subject configuration).map fun pl => (.planner p.id, pl)) ++
      native.filterMap fun nt =>
        if nt = product_type then some (.noPlanner, liftNativePlan subject product_type)
        else none)

/-- `LocalScheduler.promise` (the subject already resolved to an object,
whose native products are `native`): fast path through the `ProductMapper`,
otherwise build the candidate list and resolve it — zero candidates raise
`NoProducersError`, two or more raise `ConflictingProducersError`, exactly
one is registered (rewrapping a registration failure as a `SchedulingError`)
and its primary promise returned. -/
def schedPromise (reg : Registry) (fuel : Nat) (st : SchedState) (subject : Nat)
    (product_type : PType) (configuration : Option Config) (native : List PType) :
    Option (Except SchedError (SchedState × PromiseKey)) :=
  let pk : PromiseKey := (product_type, subject, configuration)
  match mapperGet st.mapper pk with
  | some _ => some (.ok (st, pk))
  | none =>
    match candidatePlans reg fuel subject product_type configuration native with
    | none => none
    | some cands =>
      if 1 < cands.length then
        some (.error (.conflictingProducers product_type subject (cands.map Prod.fst)))
      else
        match cands with
        | [] => some (.error (.noProducers product_type subject))
        | (tag, plan) :: _ =>
          match registerPromises st.mapper product_type plan (some subject) configuration with
          | .error _ => some (.error (.schedulingFailure product_type subject))
          | .ok (m2, primary) =>
            some (.ok
              ({ mapper := m2, plansBy := updatePlansBy tag product_type plan st.plansBy },
               primary.getD pk))

/-! ## `ExecutionGraph.walk` -/

/-- Membership in the walk's seen-set, under `Plan.__eq__`. -/
def seenHas (seen : List Plan) (p : Plan) : Bool :=
  seen.any fun q => planEqb q p

/-- Walk a list of promises in order, threading the seen-set; `f` is the
recursive `_walk_plan` call at the enclosing recursion depth. -/
def walkPromisesF
    (f : PromiseKey → List Plan → Option (List (PromiseKey × Plan) × List Plan)) :
    List PromiseKey → List Plan → Option (List (PromiseKey × Plan) × List Plan)
  | [], seen => some ([], seen)
  | pk :: rest, seen =>
    match f pk seen with
    | none => none
    | some (ys, seen') =>
      match walkPromisesF f rest seen' with
      | none => none
      | some (ys', seen'') => some (ys ++ ys', seen'')

/-- `ExecutionGraph._walk_plan`, with fuel counting recursion depth: look the
promise up (an unregistered promise aborts the walk, as the source's `None`
dereference does), skip plans already seen, otherwise mark the plan seen,
walk its promises depth first, and yield `(promise, plan)` after them
(post-order).  Returns the yields and the grown seen-set. -/
def walkPlan (mapper : Mapper) : Nat → PromiseKey → List Plan →
    Option (List (PromiseKey × Plan) × List Plan)
  | 0, _, _ => none
  | fuel + 1, pk, seen =>
    match mapperGet mapper pk with
    | none => none
    | some plan =>
      if seenHas seen plan then some ([], seen)
      else
        match walkPromisesF (walkPlan mapper fuel) (planPromises plan) (plan :: seen) with
        | none => none
        | some (ys, seen') => some (ys ++ [(pk, plan)], seen')

/-- `ExecutionGraph.walk`: depth-first walk from each root promise in order,
with one seen-set shared across roots. -/
def egWalk (mapper : Mapper) (fuel : Nat) (roots : List PromiseKey) :
    Option (List (PromiseKey × Plan)) :=
  (walkPromisesF (walkPlan mapper fuel) roots []).map Prod.fst

/-! ## Termination behaviour of the requirement solver (C2) -/

/-- A registry whose single planner emits product `0` requiring product `0`
itself — a minimal mutually referential (here self-referential) DNF
requirement graph. -/
def cyclicRegistry : Registry :=
  ⟨[⟨7, [(0, [[0]])], fun _ _ _ => none⟩]⟩

/-- The solver never returns on the given query, whatever the recursion
budget: this is the fuel-model statement of non-termination of
`_apply_product_requirements`. -/
def solverDiverges (reg : Registry) (O : PType) (inputs : List PType) : Prop :=
  ∀ fuel st, applyPR reg fuel O inputs st = none

/-- C2 counterexample: on the self-referential registry (planner emits `0`
requiring `0`) with no native products, `_apply_product_requirements`
recurses forever — the source has no memoization and no in-progress marker,
so the solver does **not** terminate on every input. -/
theorem requirement_solver_diverges_on_cycle : solverDiverges cyclicRegistry 0 [] := by
  intro fuel
  induction fuel with
  | zero => intro st; rfl
  | succ n ih =>
    intro st
    simp only [cyclicRegistry] at ih ⊢
    simp [applyPR, Registry.outputProducts, Registry.reqsFor, lookupPT,
      applyPlannersF, applyClausesF, evalClauseF, ih]

/-- Every `f`-call on a clause member returning, the clause evaluation
returns. -/
theorem evalClauseF_isSome {f : PType → SolverState → Option (Bool × SolverState)}
    (clause : List PType) (h : ∀ R ∈ clause, ∀ st, (f R st).isSome) :
    ∀ st, (evalClauseF f clause st).isSome := by
  induction clause with
  | nil => intro st; simp [evalClauseF]
  | cons r rs ih =>
    intro st
    have h1 := h r (by simp) st
    cases hfr : f r st with
    | none => rw [hfr] at h1; simp at h1
    | some v =>
      obtain ⟨b, st'⟩ := v
      have h2 := ih (fun R hR st => h R (by simp [hR]) st) st'
      cases hec : evalClauseF f rs st' with
      | none => rw [hec] at h2; simp at h2
      | some w =>
        obtain ⟨bs, st''⟩ := w
        simp [evalClauseF, hfr, hec]

/-- Every `f`-call on a requirement of any clause returning, the clause loop
returns. -/
theorem applyClausesF_isSome {f : PType → SolverState → Option (Bool × SolverState)}
    {planner : PlannerId} (clauses : List (List PType))
    (h : ∀ clause ∈ clauses, ∀ R ∈ clause, ∀ st, (f R st).isSome) :
    ∀ st, (applyClausesF f planner clauses st).isSome := by
  induction clauses with
  | nil => intro st; simp [applyClausesF]
  | cons c cs ih =>
    intro st
    have h1 := evalClauseF_isSome c (fun R hR st => h c (by simp) R hR st) st
    cases hec : evalClauseF f c st with
    | none => rw [hec] at h1; simp at h1
    | some v =>
      obtain ⟨bs, st'⟩ := v
      have ihcs := ih fun clause hcl R hR st => h clause (by simp [hcl]) R hR st
      by_cases hcnt : bs.count true = c.length
      · simp [applyClausesF, hec, hcnt]
      · by_cases hpos : 0 < bs.count true
        · simp [applyClausesF, hec, hcnt, hpos, ihcs]
        · simp [applyClausesF, hec, hcnt, hpos, ihcs]

/-- Every `f`-call on a requirement of any registered clause returning, the
planner loop returns. -/
theorem applyPlannersF_isSome {f : PType → SolverState → Option (Bool × SolverState)}
    (prs : List (PlannerId × List (List PType)))
    (h : ∀ pc ∈ prs, ∀ clause ∈ pc.2, ∀ R ∈ clause, ∀ st, (f R st).isSome) :
    ∀ acc st, (applyPlannersF f prs acc st).isSome := by
  induction prs with
  | nil => intro acc st; simp [applyPlannersF]
  | cons pc rest ih =>
    intro acc st
    obtain ⟨planner, clauses⟩ := pc
    have h1 := @applyClausesF_isSome f planner clauses
      (fun clause hcl R hR st => h (planner, clauses) (by simp) clause hcl R hR st) st
    cases hac : applyClausesF f planner clauses st with
    | none => rw [hac] at h1; simp at h1
    | some v =>
      obtain ⟨m, st'⟩ := v
      have := ih (fun pc hpc clause hcl R hR st => h pc (by simp [hpc]) clause hcl R hR st)
        (acc || m) st'
      simp [applyPlannersF, hac, this]

/-- A rank function witnessing that the requirement graph is acyclic: every
requirement a planner lists for output `O` ranks strictly below `O`. -/
def RankedReqs (reg : Registry) (rank : PType → Nat) : Prop :=
  ∀ O pc clause R, pc ∈ reg.reqsFor O → clause ∈ pc.2 → R ∈ clause → rank R < rank O

/-- C2 (amended): the requirement solver terminates on every input whose
requirement graph is acyclic — when a rank function decreases from each
output to each of its listed requirements, `_apply_product_requirements`
returns once the recursion budget exceeds the rank of the requested output
(the set of product types being finite is not enough on its own: see the
counterexample for a mutually referential graph where the solver loops). -/
theorem requirement_solver_terminates_on_ranked {reg : Registry} {rank : PType → Nat}
    (hr : RankedReqs reg rank) :
    ∀ fuel O inputs st, rank O < fuel → (applyPR reg fuel O inputs st).isSome := by
  intro fuel
  induction fuel with
  | zero => intro O inputs st h; exact absurd h (Nat.not_lt_zero _)
  | succ n ih =>
    intro O inputs st h
    by_cases h1 : O ∈ inputs
    · simp [applyPR, h1]
    · by_cases h2 : O ∈ reg.outputProducts
      · simp only [applyPR, h1, if_false, h2, not_true_eq_false, if_neg, ite_false,
          not_false_eq_true, ite_true]
        have hn : rank O ≤ n := Nat.lt_succ_iff.mp h
        refine applyPlannersF_isSome (reg.reqsFor O) ?_ false st
        intro pc hpc clause hcl R hR st'
        exact ih R inputs st' (Nat.lt_of_lt_of_le (hr O pc clause R hpc hcl hR) hn)
      · simp [applyPR, h1, h2]

/-- A registry with the acyclic requirement `1 ← [[0]]`, for exercising the
ranked-termination theorem at a concrete input. -/
def chainRegistry : Registry :=
  ⟨[⟨7, [(1, [[0]])], fun _ _ _ => none⟩]⟩

/-- Witness for the amended C2 theorem: the chain registry is ranked by the
identity, and the solver indeed returns on it within the promised budget. -/
theorem requirement_solver_terminates_on_ranked_witness :
    (applyPR chainRegistry 2 1 [0] ⟨[], []⟩).isSome = true := by
  have hr : RankedReqs chainRegistry id := by
    intro O pc clause R hpc hcl hR
    simp [Registry.reqsFor, chainRegistry, lookupPT] at hpc
    obtain ⟨dnf, ⟨hO, hdnf⟩, hpc2⟩ := hpc
    subst hO
    subst hdnf
    subst hpc2
    simp at hcl
    subst hcl
    simp at hR
    subst hR
    decide
  exact requirement_solver_terminates_on_ranked hr 2 1 [0] ⟨[], []⟩ (by decide)

/-! ## Monotonicity of the solver verdict (C7) -/

/-- Counting `true` is monotone under pointwise boolean implication. -/
theorem count_true_le_of_forall_imp {bs bs' : List Bool}
    (h : List.Forall₂ (fun a b => a = true → b = true) bs bs') :
    bs.count true ≤ bs'.count true := by
  induction h with
  | nil => simp
  | cons hab htail ih =>
    rename_i a b l₁ l₂
    cases a with
    | false => simp [List.count_cons]; omega
    | true => simp [List.count_cons, hab rfl]; omega

/-- The clause evaluation returns one boolean per requirement. -/
theorem evalClauseF_length {f : PType → SolverState → Option (Bool × SolverState)} :
    ∀ (clause : List PType) (st : SolverState) (bs : List Bool) (s : SolverState),
    evalClauseF f clause st = some (bs, s) → bs.length = clause.length := by
  intro clause
  induction clause with
  | nil => intro st bs s h; simp [evalClauseF] at h; simp [h.1.symm]
  | cons r rs ih =>
    intro st bs s h
    cases hfr : f r st with
    | none => simp [evalClauseF, hfr] at h
    | some v =>
      obtain ⟨b, stm⟩ := v
      cases hrest : evalClauseF f rs stm with
      | none => simp [evalClauseF, hfr, hrest] at h
      | some w =>
        obtain ⟨bs₀, stf⟩ := w
        simp only [evalClauseF, hfr, hrest] at h
        obtain ⟨hbs, hs⟩ := Prod.mk.injEq .. ▸ (Option.some.injEq .. ▸ h)
        subst hbs
        simp [ih stm bs₀ stf hrest]

/-- Monotonicity of clause evaluation: if each requirement's old verdict
implies its new verdict (from any state), the old boolean vector implies the
new one pointwise, and the new evaluation returns whenever the old one did. -/
theorem evalClauseF_mono {f g : PType → SolverState → Option (Bool × SolverState)}
    (clause : List PType)
    (h : ∀ R ∈ clause, ∀ st₁ st₂ b s₁, f R st₁ = some (b, s₁) →
      ∃ b' s₂, g R st₂ = some (b', s₂) ∧ (b = true → b' = true)) :
    ∀ st₁ st₂ bs s₁, evalClauseF f clause st₁ = some (bs, s₁) →
    ∃ bs' s₂, evalClauseF g clause st₂ = some (bs', s₂) ∧
      List.Forall₂ (fun a b => a = true → b = true) bs bs' := by
  induction clause with
  | nil =>
    intro st₁ st₂ bs s₁ hev
    simp [evalClauseF] at hev
    exact ⟨[], st₂, by simp [evalClauseF], by simp [hev.1.symm]⟩
  | cons r rs ih =>
    intro st₁ st₂ bs s₁ hev
    cases hfr : f r st₁ with
    | none => simp [evalClauseF, hfr] at hev
    | some v =>
      obtain ⟨b, stm⟩ := v
      cases hrest : evalClauseF f rs stm with
      | none => simp [evalClauseF, hfr, hrest] at hev
      | some w =>
        obtain ⟨bs₀, stf⟩ := w
        simp only [evalClauseF, hfr, hrest, Option.some.injEq, Prod.mk.injEq] at hev
        obtain ⟨b2, s₂2, hg, himp⟩ := h r (by simp) st₁ st₂ b stm hfr
        obtain ⟨bs2, s₂3, hg2, hfor⟩ :=
          ih (fun R hR => h R (by simp [hR])) stm s₂2 bs₀ stf hrest
        refine ⟨b2 :: bs2, s₂3, by simp [evalClauseF, hg, hg2], ?_⟩
        rw [← hev.1]
        exact List.Forall₂.cons himp hfor

/-- Monotonicity of the clause loop. -/
theorem applyClausesF_mono {f g : PType → SolverState → Option (Bool × SolverState)}
    {planner : PlannerId} (clauses : List (List PType))
    (h : ∀ clause ∈ clauses, ∀ R ∈ clause, ∀ st₁ st₂ b s₁, f R st₁ = some (b, s₁) →
      ∃ b' s₂, g R st₂ = some (b', s₂) ∧ (b = true → b' = true)) :
    ∀ st₁ st₂ b s₁, applyClausesF f planner clauses st₁ = some (b, s₁) →
    ∃ b' s₂, applyClausesF g planner clauses st₂ = some (b', s₂) ∧ (b = true → b' = true) := by
  induction clauses with
  | nil =>
    intro st₁ st₂ b s₁ hac
    simp [applyClausesF] at hac
    exact ⟨false, st₂, by simp [applyClausesF], by simp [hac.1.symm]⟩
  | cons c cs ih =>
    intro st₁ st₂ b s₁ hac
    cases hev : evalClauseF f c st₁ with
    | none => simp [applyClausesF, hev] at hac
    | some v =>
      obtain ⟨bs, stm⟩ := v
      obtain ⟨bs2, stm2, hg, hfor⟩ :=
        evalClauseF_mono c (fun R hR => h c (by simp) R hR) st₁ st₂ bs stm hev
      have hlen : bs.length = c.length := evalClauseF_length c st₁ bs stm hev
      have hlen2 : bs2.length = c.length := by rw [← hfor.length_eq]; exact hlen
      have hcount := count_true_le_of_forall_imp hfor
      have ihcs := ih fun cl hcl => h cl (by simp [hcl])
      by_cases hcnt : bs.count true = c.length
      · have hcnt2 : bs2.count true = c.length := by
          have hle : bs2.count true ≤ c.length := hlen2 ▸ List.count_le_length ..
          omega
        simp only [applyClausesF, hev, hcnt, if_true, Option.some.injEq, Prod.mk.injEq] at hac
        exact ⟨true, ⟨addAll stm2.fullyConsumed c, stm2.partiallyConsumed⟩,
          by simp [applyClausesF, hg, hcnt2], fun _ => rfl⟩
      · by_cases hcnt2 : bs2.count true = c.length
        · -- the new run satisfies this clause outright
          by_cases hpos : 0 < bs.count true
          · simp only [applyClausesF, hev, hcnt, if_false, hpos, if_true, ite_false,
              ite_true] at hac
            exact ⟨true, ⟨addAll stm2.fullyConsumed c, stm2.partiallyConsumed⟩,
              by simp [applyClausesF, hg, hcnt2], fun _ => rfl⟩
          · simp only [applyClausesF, hev, hcnt, hpos, if_false, ite_false] at hac
            exact ⟨true, ⟨addAll stm2.fullyConsumed c, stm2.partiallyConsumed⟩,
              by simp [applyClausesF, hg, hcnt2], fun _ => rfl⟩
        · by_cases hpos : 0 < bs.count true
          · have hpos2 : 0 < bs2.count true := lt_of_lt_of_le hpos hcount
            simp only [applyClausesF, hev, hcnt, hpos, if_false, if_true, ite_false,
              ite_true] at hac
            obtain ⟨b2, s₂2, hrec, himp⟩ := ihcs _ _ b s₁ hac
            exact ⟨b2, s₂2, by simp [applyClausesF, hg, hcnt2, hpos2]; exact hrec, himp⟩
          · simp only [applyClausesF, hev, hcnt, hpos, if_false, ite_false] at hac
            by_cases hpos2 : 0 < bs2.count true
            · obtain ⟨b2, s₂2, hrec, himp⟩ := ihcs _ _ b s₁ hac
              exact ⟨b2, s₂2, by simp [applyClausesF, hg, hcnt2, hpos2]; exact hrec, himp⟩
            · obtain ⟨b2, s₂2, hrec, himp⟩ := ihcs _ _ b s₁ hac
              exact ⟨b2, s₂2, by simp [applyClausesF, hg, hcnt2, hpos2]; exact hrec, himp⟩

/-- Monotonicity of the planner loop. -/
theorem applyPlannersF_mono {f g : PType → SolverState → Option (Bool × SolverState)}
    (prs : List (PlannerId × List (List PType)))
    (h : ∀ pc ∈ prs, ∀ clause ∈ pc.2, ∀ R ∈ clause, ∀ st₁ st₂ b s₁, f R st₁ = some (b, s₁) →
      ∃ b' s₂, g R st₂ = some (b', s₂) ∧ (b = true → b' = true)) :
    ∀ acc acc2 st₁ st₂ b s₁, (acc = true → acc2 = true) →
    applyPlannersF f prs acc st₁ = some (b, s₁) →
    ∃ b' s₂, applyPlannersF g prs acc2 st₂ = some (b', s₂) ∧ (b = true → b' = true) := by
  induction prs with
  | nil =>
    intro acc acc2 st₁ st₂ b s₁ haccs hap
    simp [applyPlannersF] at hap
    exact ⟨acc2, st₂, by simp [applyPlannersF], fun hb => haccs (by rw [hap.1]; exact hb)⟩
  | cons pc rest ih =>
    intro acc acc2 st₁ st₂ b s₁ haccs hap
    obtain ⟨planner, clauses⟩ := pc
    cases hac : applyClausesF f planner clauses st₁ with
    | none => simp [applyPlannersF, hac] at hap
    | some v =>
      obtain ⟨m, stm⟩ := v
      obtain ⟨m2, stm2, hg, himpm⟩ :=
        applyClausesF_mono clauses (fun cl hcl => h (planner, clauses) (by simp) cl hcl)
          st₁ st₂ m stm hac
      simp only [applyPlannersF, hac] at hap
      obtain ⟨b2, s₂2, hrec, himp⟩ :=
        ih (fun pc hpc => h pc (by simp [hpc])) (acc || m) (acc2 || m2) stm stm2 b s₁
          (by intro hor
              rcases Bool.or_eq_true_iff.mp hor with ha | hm
              · simp [haccs ha]
              · simp [himpm hm]) hap
      exact ⟨b2, s₂2, by simp only [applyPlannersF, hg]; exact hrec, himp⟩

/-- Monotonicity of `_apply_product_requirements` in the native input
products: enlarging the inputs can only turn verdicts from false to true, and
never makes a returning computation diverge (the accumulators are write-only,
so the incoming state is irrelevant to the verdict). -/
theorem applyPR_mono (reg : Registry) :
    ∀ (fuel : Nat) (O : PType) (inputs inputs2 : List PType), (∀ x ∈ inputs, x ∈ inputs2) →
    ∀ st₁ st₂ b s₁, applyPR reg fuel O inputs st₁ = some (b, s₁) →
    ∃ b' s₂, applyPR reg fuel O inputs2 st₂ = some (b', s₂) ∧ (b = true → b' = true) := by
  intro fuel
  induction fuel with
  | zero => intro O inputs inputs2 _ st₁ st₂ b s₁ h; simp [applyPR] at h
  | succ n ih =>
    intro O inputs inputs2 hsub st₁ st₂ b s₁ h
    by_cases h1 : O ∈ inputs
    · simp only [applyPR, h1, if_true, Option.some.injEq, Prod.mk.injEq, ite_true] at h
      exact ⟨true, st₂, by simp [applyPR, hsub O h1], fun _ => rfl⟩
    · by_cases h12 : O ∈ inputs2
      · exact ⟨true, st₂, by simp [applyPR, h12], fun _ => rfl⟩
      · by_cases h2 : O ∈ reg.outputProducts
        · simp only [applyPR, h1, if_false, h2, not_true_eq_false, ite_false,
            not_false_eq_true, ite_true] at h
          obtain ⟨b2, s₂2, hrec, himp⟩ :=
            applyPlannersF_mono (reg.reqsFor O)
              (fun pc _ clause _ R _ st₁' st₂' bR sR hR =>
                ih R inputs inputs2 hsub st₁' st₂' bR sR hR)
              false false st₁ st₂ b s₁ (fun hb => hb) h
          refine ⟨b2, s₂2, ?_, himp⟩
          simp only [applyPR, h1, if_false, h12, h2, not_true_eq_false, ite_false,
            not_false_eq_true, ite_true]
          exact hrec
        · simp only [applyPR, h1, if_false, h2, not_false_eq_true, ite_false,
            ite_true, Option.some.injEq, Prod.mk.injEq] at h
          refine ⟨false, st₂, ?_, by simp [← h.1]⟩
          simp [applyPR, h1, h12, h2]

/-- C7: producibility is monotone in the native products — an output judged
producible by `_apply_product_requirements` for some native input products is
still judged producible for any superset of them (from any accumulator
state). -/
theorem producible_monotone_in_native {reg : Registry} {fuel : Nat} {O : PType}
    {inputs inputs2 : List PType} {st₁ : SolverState} {s₁ : SolverState}
    (hsub : ∀ x ∈ inputs, x ∈ inputs2)
    (h : applyPR reg fuel O inputs st₁ = some (true, s₁)) :
    ∀ st₂, ∃ s₂, applyPR reg fuel O inputs2 st₂ = some (true, s₂) := by
  intro st₂
  obtain ⟨b2, s₂, hres, himp⟩ := applyPR_mono reg fuel O inputs inputs2 hsub st₁ st₂ true s₁ h
  rw [himp rfl] at hres
  exact ⟨s₂, hres⟩

/-- A registry with an ORed requirement, for exercising the monotonicity
theorem at a concrete input: planner `7` emits `10` requiring
`(1 AND 2) OR (3)`. -/
def dnfRegistry : Registry :=
  ⟨[⟨7, [(10, [[1, 2], [3]])], fun _ _ _ => none⟩]⟩

/-- Witness for C7: `10` is producible from native `[3]`, hence also from the
superset `[3, 4]`. -/
theorem producible_monotone_in_native_witness :
    ∃ s₂, applyPR dnfRegistry 2 10 [3, 4] ⟨[], []⟩ = some (true, s₂) :=
  producible_monotone_in_native (by decide)
    (show applyPR dnfRegistry 2 10 [3] ⟨[], []⟩ = some (true, ⟨[3], []⟩) from rfl) ⟨[], []⟩

/-! ## `produced_types_for_subject` (C3) -/

/-- The solver's verdict for an output from fresh accumulators — well defined
because the accumulators are write-only. -/
def applyPRB (reg : Registry) (fuel : Nat) (O : PType) (inputs : List PType) : Option Bool :=
  (applyPR reg fuel O inputs ⟨[], []⟩).map Prod.fst

/-- The boolean verdict of `_apply_product_requirements` does not depend on
the accumulator state it is started from. -/
theorem applyPR_verdict_state_irrelevant {reg : Registry} {fuel : Nat} {O : PType}
    {inputs : List PType} {st s : SolverState} {b : Bool}
    (h : applyPR reg fuel O inputs st = some (b, s)) :
    applyPRB reg fuel O inputs = some b := by
  have hid : ∀ x ∈ inputs, x ∈ inputs := fun x hx => hx
  obtain ⟨b2, s₂, h2, himp⟩ := applyPR_mono reg fuel O inputs inputs hid st ⟨[], []⟩ b s h
  obtain ⟨b3, s₃, h3, himp2⟩ := applyPR_mono reg fuel O inputs inputs hid ⟨[], []⟩ st b2 s₂ h2
  rw [h] at h3
  simp only [Option.some.injEq, Prod.mk.injEq] at h3
  obtain ⟨hb, -⟩ := h3
  have hbb : b = b2 := by
    cases b <;> cases b2
    · rfl
    · exact hb.trans (himp2 rfl)
    · exact (himp rfl).symm
    · rfl
  rw [applyPRB, h2, ← hbb]
  rfl

/-- The producible list collected by the loop of `produced_types_for_subject`
is the input-ordered filter by the (state-independent) solver verdict. -/
theorem producedLoop_filter {reg : Registry} {fuel : Nat} {inputs : List PType} :
    ∀ (outputs : List PType) (st₀ : SolverState) (prod : List PType) (st : SolverState),
    producedLoop reg fuel inputs outputs st₀ = some (prod, st) →
    prod = outputs.filter fun O => decide (applyPRB reg fuel O inputs = some true) := by
  intro outputs
  induction outputs with
  | nil =>
    intro st₀ prod st h
    simp only [producedLoop, Option.some.injEq, Prod.mk.injEq] at h
    obtain ⟨h1, -⟩ := h
    simp [← h1]
  | cons O rest ih =>
    intro st₀ prod st h
    cases hpr : applyPR reg fuel O inputs st₀ with
    | none => simp [producedLoop, hpr] at h
    | some v =>
      obtain ⟨b, st₁⟩ := v
      cases hloop : producedLoop reg fuel inputs rest st₁ with
      | none => simp [producedLoop, hpr, hloop] at h
      | some w =>
        obtain ⟨ps, st₂⟩ := w
        simp only [producedLoop, hpr, hloop, Option.some.injEq, Prod.mk.injEq] at h
        have hverdict := applyPR_verdict_state_irrelevant hpr
        have hrest := ih st₁ ps st₂ hloop
        rw [← h.1, hrest]
        cases b
        · simp [List.filter_cons, hverdict]
        · simp [List.filter_cons, hverdict]

/-- C3: `produced_types_for_subject` raises `PartiallyConsumedInputsError` if
and only if, after solving all candidate outputs with shared accumulators,
some product in the partially-consumed accumulator is missing from the
fully-consumed set; the error then carries the last output type attempted and
exactly the partially-consumed entries whose key was never fully consumed;
otherwise the call returns exactly the candidate outputs the solver judged
producible, in input order. -/
theorem produced_types_characterization {reg : Registry} {fuel : Nat}
    {inputs outputs prod : List PType} {st : SolverState}
    (h : producedLoop reg fuel inputs outputs ⟨[], []⟩ = some (prod, st)) :
    ((∃ e, producedTypesForSubject reg fuel inputs outputs = some (.error e)) ↔
      ∃ p ∈ st.partiallyConsumed.map Prod.fst, p ∉ st.fullyConsumed) ∧
    (∀ e, producedTypesForSubject reg fuel inputs outputs = some (.error e) →
      e.lastOutput = outputs.getLast? ∧
      e.offending = st.partiallyConsumed.filter fun en => en.1 ∉ st.fullyConsumed) ∧
    ((∀ p ∈ st.partiallyConsumed.map Prod.fst, p ∈ st.fullyConsumed) →
      producedTypesForSubject reg fuel inputs outputs =
        some (.ok (outputs.filter fun O => decide (applyPRB reg fuel O inputs = some true)))) := by
  have hfilter := producedLoop_filter outputs ⟨[], []⟩ prod st h
  have hkey : (st.partiallyConsumed.filter fun en => en.1 ∉ st.fullyConsumed) = [] ↔
      ∀ p ∈ st.partiallyConsumed.map Prod.fst, p ∈ st.fullyConsumed := by
    rw [List.filter_eq_nil_iff]
    constructor
    · intro hall p hp
      obtain ⟨en, hen, hfst⟩ := List.mem_map.mp hp
      have := hall en hen
      simp at this
      rw [← hfst]
      exact this
    · intro hall en hen
      simp only [decide_not, Bool.not_eq_true', decide_eq_false_iff_not, Decidable.not_not]
      exact hall en.1 (List.mem_map.mpr ⟨en, hen, rfl⟩)
  have hpt : producedTypesForSubject reg fuel inputs outputs =
      (if (st.partiallyConsumed.filter fun en => en.1 ∉ st.fullyConsumed).isEmpty
        then some (.ok prod)
        else some (.error ⟨outputs.getLast?,
          st.partiallyConsumed.filter fun en => en.1 ∉ st.fullyConsumed⟩)) := by
    simp only [producedTypesForSubject]
    rw [h]
  rcases hoff : st.partiallyConsumed.filter fun en => en.1 ∉ st.fullyConsumed with _ | ⟨x, xs⟩
  · rw [hoff] at hpt
    simp only [List.isEmpty_nil, if_true, ite_true] at hpt
    refine ⟨?_, ?_, ?_⟩
    · constructor
      · rintro ⟨e, he⟩
        rw [hpt] at he
        simp at he
      · rintro ⟨p, hp, hnf⟩
        exact absurd (hkey.mp hoff p hp) hnf
    · intro e he
      rw [hpt] at he
      simp at he
    · intro _
      rw [hpt, hfilter]
  · rw [hoff] at hpt
    simp only [List.isEmpty_cons, if_false, Bool.false_eq_true, ite_false] at hpt
    refine ⟨?_, ?_, ?_⟩
    · constructor
      · rintro -
        by_contra hno
        push_neg at hno
        rw [hkey.mpr hno] at hoff
        exact List.noConfusion hoff
      · intro _
        exact ⟨_, hpt⟩
    · intro e he
      rw [hpt] at he
      simp only [Option.some.injEq] at he
      injection he with he3
      rw [← he3]
      exact ⟨rfl, hoff.symm⟩
    · intro hall
      rw [hkey.mpr hall] at hoff
      exact absurd hoff (List.noConfusion ·)

/-- The registry of spec scenario S5: planner `7` emits `10` requiring
`(1 AND 2)`, and nothing produces `2`. -/
def partialRegistry : Registry :=
  ⟨[⟨7, [(10, [[1, 2]])], fun _ _ _ => none⟩]⟩

/-- Witness for C3: on the S5 registry with native products `[1]`, the loop
completes, a partially consumed product (`1`) was never fully consumed, and
the call indeed raises. -/
theorem produced_types_characterization_witness :
    ∃ e, producedTypesForSubject partialRegistry 2 [1] [10] = some (.error e) := by
  have h := @produced_types_characterization partialRegistry 2 [1] [10] []
    ⟨[], [(1, [(7, [2])])]⟩ rfl
  exact h.1.mpr (by decide)

/-! ## `ProductMapper` registration (C8, C10) -/

/-- The primary-promise component of the registration fold: with no primary
subject requested it stays as initialized. -/
theorem registerFold_snd_none (pt : PType) (cfg : Option Config) (plan : Plan) :
    ∀ (subjects : List Subject) (m : Mapper) (pr : Option PromiseKey),
    (subjects.foldl (registerStep pt cfg plan none) (m, pr)).2 = pr := by
  intro subjects
  induction subjects with
  | nil => intro m pr; rfl
  | cons s ss ih => intro m pr; simp [List.foldl_cons, registerStep, ih]

/-- The primary-promise component of the registration fold: with a primary
subject requested it is the primary's promise exactly when some subject of
the plan carries that primary. -/
theorem registerFold_snd_some (pt : PType) (cfg : Option Config) (plan : Plan) (x : Nat) :
    ∀ (subjects : List Subject) (m : Mapper) (pr : Option PromiseKey),
    (subjects.foldl (registerStep pt cfg plan (some x)) (m, pr)).2 =
      if ∃ s ∈ subjects, s.primary = x then some (pt, x, cfg) else pr := by
  intro subjects
  induction subjects with
  | nil => intro m pr; simp
  | cons s ss ih =>
    intro m pr
    by_cases hs : s.primary = x
    · rw [List.foldl_cons]
      have hstep : (registerStep pt cfg plan (some x) (m, pr) s).2 = some (pt, x, cfg) := by
        simp [registerStep, hs]
      rw [show registerStep pt cfg plan (some x) (m, pr) s =
          ((registerStep pt cfg plan (some x) (m, pr) s).1, some (pt, x, cfg)) from
          Prod.ext rfl hstep]
      rw [ih]
      simp [hs]
    · rw [List.foldl_cons]
      have hstep : (registerStep pt cfg plan (some x) (m, pr) s).2 = pr := by
        simp [registerStep]
        intro hx
        exact absurd hx.symm hs
      rw [show registerStep pt cfg plan (some x) (m, pr) s =
          ((registerStep pt cfg plan (some x) (m, pr) s).1, pr) from Prod.ext rfl hstep]
      rw [ih]
      have : (∃ s' ∈ s :: ss, s'.primary = x) ↔ ∃ s' ∈ ss, s'.primary = x := by
        simp only [List.mem_cons]
        constructor
        · rintro ⟨s', hs', hx⟩
          cases hs' with
          | inl heq => exact absurd (heq ▸ hx) hs
          | inr hmem => exact ⟨s', hmem, hx⟩
        · rintro ⟨s', hs', hx⟩
          exact ⟨s', Or.inr hs', hx⟩
      by_cases hex : ∃ s' ∈ ss, s'.primary = x
      · simp [hex, this.mpr hex]
      · simp [hex, hs, this.not.mpr hex]

/-- The mapper component of the registration fold: a promise key is mapped to
the registered plan exactly when some subject of the iterated list carries
it; every other key keeps its previous binding. -/
theorem registerFold_fst (pt : PType) (cfg : Option Config) (plan : Plan) (ps : Option Nat) :
    ∀ (subjects : List Subject) (m : Mapper) (pr : Option PromiseKey) (q : PromiseKey),
    mapperGet ((subjects.foldl (registerStep pt cfg plan ps) (m, pr)).1) q =
      if ∃ s ∈ subjects, q = (pt, s.primary, cfg) then some plan else mapperGet m q := by
  intro subjects
  induction subjects with
  | nil => intro m pr q; simp
  | cons s ss ih =>
    intro m pr q
    rw [List.foldl_cons]
    have hfst : (registerStep pt cfg plan ps (m, pr) s).1 = ((pt, s.primary, cfg), plan) :: m :=
      rfl
    rw [show registerStep pt cfg plan ps (m, pr) s =
        (((pt, s.primary, cfg), plan) :: m, (registerStep pt cfg plan ps (m, pr) s).2) from
        Prod.ext hfst rfl]
    rw [ih]
    by_cases hq : q = (pt, s.primary, cfg)
    · subst hq
      by_cases hex : ∃ s' ∈ ss, ((pt, s.primary, cfg) : PromiseKey) = (pt, s'.primary, cfg)
      · simp [hex, mapperGet]
      · simp [hex, mapperGet]
    · have hiff : (∃ s' ∈ s :: ss, q = (pt, s'.primary, cfg)) ↔
          ∃ s' ∈ ss, q = (pt, s'.primary, cfg) := by
        simp only [List.mem_cons]
        constructor
        · rintro ⟨s', hs', hk⟩
          cases hs' with
          | inl heq => exact absurd (heq ▸ hk) hq
          | inr hmem => exact ⟨s', hmem, hk⟩
        · rintro ⟨s', hs', hk⟩
          exact ⟨s', Or.inr hs', hk⟩
      by_cases hex : ∃ s' ∈ ss, q = (pt, s'.primary, cfg)
      · simp [hex, hiff.mpr hex]
      · have hqget : mapperGet (((pt, s.primary, cfg), plan) :: m) q = mapperGet m q := by
          simp [mapperGet]
          intro heq
          exact absurd heq.symm hq
        simp only [hex, if_false, ite_false, hiff.not.mpr hex]
        simp [hex, hqget]

/-- C8: `register_promises` stores `Promise(product_type, s, configuration) →
plan` for every subject `s` of the plan; it raises
`InvalidRegistrationError` exactly when a primary subject was supplied and no
subject of the plan carries it; otherwise it returns the primary promise when
a primary subject was supplied, and null when none was. -/
theorem register_promises_characterization (m : Mapper) (pt : PType) (plan : Plan)
    (cfg : Option Config) :
    (∀ x, (registerPromises m pt plan (some x) cfg = .error ()) ↔
      ∀ s ∈ plan.subjects, s.primary ≠ x) ∧
    (∀ x, (∃ s ∈ plan.subjects, s.primary = x) →
      ∃ m2, registerPromises m pt plan (some x) cfg = .ok (m2, some (pt, x, cfg)) ∧
        ∀ q, mapperGet m2 q =
          if ∃ s ∈ plan.subjects, q = (pt, s.primary, cfg) then some plan else mapperGet m q) ∧
    (∃ m2, registerPromises m pt plan none cfg = .ok (m2, none) ∧
      ∀ q, mapperGet m2 q =
        if ∃ s ∈ plan.subjects, q = (pt, s.primary, cfg) then some plan else mapperGet m q) := by
  refine ⟨?_, ?_, ?_⟩
  · intro x
    rw [registerPromises]
    rw [registerFold_snd_some pt cfg plan x plan.subjects m none]
    by_cases hex : ∃ s ∈ plan.subjects, s.primary = x
    · simp only [hex, if_true, ite_true]
      constructor
      · intro h
        simp at h
      · intro hall
        obtain ⟨s, hs, hx⟩ := hex
        exact absurd hx (hall s hs)
    · simp only [hex, if_false, ite_false]
      simp only [Option.isSome_some, Option.isNone_none, Bool.and_self, if_true, ite_true]
      constructor
      · intro _ s hs hx
        exact hex ⟨s, hs, hx⟩
      · intro _
        trivial
  · intro x hex
    rw [registerPromises]
    rw [show (plan.subjects.foldl (registerStep pt cfg plan (some x)) (m, none)) =
        ((plan.subjects.foldl (registerStep pt cfg plan (some x)) (m, none)).1,
         (plan.subjects.foldl (registerStep pt cfg plan (some x)) (m, none)).2) from rfl]
    rw [registerFold_snd_some pt cfg plan x plan.subjects m none]
    simp only [hex, if_true, ite_true, Option.isSome_some, Option.isNone_some,
      Bool.and_false, Bool.false_eq_true, if_false, ite_false]
    exact ⟨_, rfl, fun q => registerFold_fst pt cfg plan (some x) plan.subjects m none q⟩
  · rw [registerPromises]
    rw [show (plan.subjects.foldl (registerStep pt cfg plan none) (m, none)) =
        ((plan.subjects.foldl (registerStep pt cfg plan none) (m, none)).1,
         (plan.subjects.foldl (registerStep pt cfg plan none) (m, none)).2) from rfl]
    rw [registerFold_snd_none pt cfg plan plan.subjects m none]
    simp only [Option.isSome_none, Bool.false_and, Bool.false_eq_true, if_false, ite_false]
    exact ⟨_, rfl, fun q => registerFold_fst pt cfg plan none plan.subjects m none q⟩

/-- C10: registration is last-wins and never fails on collision — when some
promise key of the plan being registered is already mapped (to any plan), a
registration without a primary subject (the finalization re-registration
path) succeeds silently and `promised` afterwards returns the newly
registered plan. -/
theorem product_mapper_overwrite {m : Mapper} {pt : PType} {plan0 plan : Plan}
    {cfg : Option Config} {s : Subject}
    (hs : s ∈ plan.subjects)
    (hold : promised m (pt, s.primary, cfg) = some plan0) :
    ∃ m2, registerPromises m pt plan none cfg = .ok (m2, none) ∧
      promised m2 (pt, s.primary, cfg) = some plan := by
  obtain ⟨-, -, m2, hreg, hget⟩ := register_promises_characterization m pt plan cfg
  refine ⟨m2, hreg, ?_⟩
  rw [promised, hget]
  have hc : ∃ s' ∈ plan.subjects, ((pt, s.primary, cfg) : PromiseKey) = (pt, s'.primary, cfg) :=
    ⟨s, hs, rfl⟩
  rw [if_pos hc]

/-- A plan covering primaries 1 and 2, for the C10 witness. -/
def twoSubjectPlan : Plan :=
  ⟨.func 5, [⟨1, none⟩, ⟨2, some 9⟩], .cons 0 (.leaf 3) .nil⟩

/-- A plan with the same promise key already registered, for the C10
witness. -/
def oldPlan : Plan :=
  ⟨.func 4, [⟨1, none⟩], .nil⟩

/-- Witness for C10: re-registering over an existing key succeeds and
redirects the promise to the new plan. -/
theorem product_mapper_overwrite_witness :
    ∃ m2, registerPromises [((6, 1, none), oldPlan)] 6 twoSubjectPlan none none =
        .ok (m2, none) ∧
      promised m2 (6, 1, none) = some twoSubjectPlan :=
  @product_mapper_overwrite [((6, 1, none), oldPlan)] 6 oldPlan twoSubjectPlan none
    ⟨1, none⟩ (by decide) (by decide)

/-! ## `LocalScheduler.promise` (C1, C4) -/

/-- Registration with a primary subject covered by the plan returns the
primary promise and the updated mapper. -/
theorem registerPromises_ok_of_cover {m : Mapper} {pt : PType} {plan : Plan} {x : Nat}
    {cfg : Option Config} (hcov : ∃ s ∈ plan.subjects, s.primary = x) :
    registerPromises m pt plan (some x) cfg =
      .ok ((plan.subjects.foldl (registerStep pt cfg plan (some x)) (m, none)).1,
        some (pt, x, cfg)) := by
  rw [registerPromises]
  rw [show (plan.subjects.foldl (registerStep pt cfg plan (some x)) (m, none)) =
      ((plan.subjects.foldl (registerStep pt cfg plan (some x)) (m, none)).1,
       (plan.subjects.foldl (registerStep pt cfg plan (some x)) (m, none)).2) from rfl]
  rw [registerFold_snd_some pt cfg plan x plan.subjects m none]
  rw [if_pos hcov]
  rfl

/-- Registration with a primary subject not covered by the plan raises. -/
theorem registerPromises_error_of_not_cover {m : Mapper} {pt : PType} {plan : Plan} {x : Nat}
    {cfg : Option Config} (hncov : ¬∃ s ∈ plan.subjects, s.primary = x) :
    registerPromises m pt plan (some x) cfg = .error () := by
  rw [registerPromises]
  rw [show (plan.subjects.foldl (registerStep pt cfg plan (some x)) (m, none)) =
      ((plan.subjects.foldl (registerStep pt cfg plan (some x)) (m, none)).1,
       (plan.subjects.foldl (registerStep pt cfg plan (some x)) (m, none)).2) from rfl]
  rw [registerFold_snd_some pt cfg plan x plan.subjects m none]
  rw [if_neg hncov]
  rfl

/-- C1: once the fast path misses, `promise` resolves the candidate list it
built — a pair per planner whose `plan` call returned non-null, plus the
synthetic `(NoPlanner, lift_native_product)` pair exactly when the requested
type is native on the subject: zero candidates raise `NoProducersError`, two
or more raise `ConflictingProducersError` with the candidate planners, and
exactly one is registered under `primary_subject = subject` (its primary
promise returned) when the plan covers the subject, the registration failure
surfacing as a `SchedulingError` otherwise. -/
theorem promise_candidate_resolution {reg : Registry} {fuel : Nat} {st : SchedState}
    {subject : Nat} {product_type : PType} {cfg : Option Config} {native : List PType}
    {cands : List (PlannerTag × Plan)}
    (hfast : mapperGet st.mapper (product_type, subject, cfg) = none)
    (hc : candidatePlans reg fuel subject product_type cfg native = some cands) :
    (∀ pl, ((PlannerTag.noPlanner, pl) ∈ cands ↔
      product_type ∈ native ∧ pl = liftNativePlan subject product_type)) ∧
    (schedPromise reg fuel st subject product_type cfg native =
        some (.error (.noProducers product_type subject)) ↔ cands = []) ∧
    (schedPromise reg fuel st subject product_type cfg native =
        some (.error (.conflictingProducers product_type subject (cands.map Prod.fst))) ↔
      2 ≤ cands.length) ∧
    (∀ tag plan, cands = [(tag, plan)] →
      ((∃ s ∈ plan.subjects, s.primary = subject) →
        schedPromise reg fuel st subject product_type cfg native =
          some (.ok
            ({ mapper :=
                 (plan.subjects.foldl (registerStep product_type cfg plan (some subject))
                   (st.mapper, none)).1,
               plansBy := updatePlansBy tag product_type plan st.plansBy },
             (product_type, subject, cfg)))) ∧
      ((¬∃ s ∈ plan.subjects, s.primary = subject) →
        schedPromise reg fuel st subject product_type cfg native =
          some (.error (.schedulingFailure product_type subject)))) := by
  obtain ⟨ps, hpf, hceq⟩ : ∃ ps, plannersFor reg fuel product_type native cfg = some ps ∧
      cands = (ps.filterMap fun p =>
          (p.planFn product_type subject cfg).map fun pl => (.planner p.id, pl)) ++
        (native.filterMap fun nt =>
          if nt = product_type then some (.noPlanner, liftNativePlan subject product_type)
          else none) := by
    cases hpf : plannersFor reg fuel product_type native cfg with
    | none => rw [candidatePlans, hpf] at hc; exact absurd hc (by simp)
    | some ps =>
      rw [candidatePlans, hpf] at hc
      simp only [Option.some.injEq] at hc
      exact ⟨ps, rfl, hc.symm⟩
  refine ⟨?_, ?_⟩
  · intro pl
    constructor
    · intro hmem
      rw [hceq] at hmem
      rcases List.mem_append.mp hmem with hL | hR
      · obtain ⟨p, hp, heq⟩ := List.mem_filterMap.mp hL
        cases hplan : p.planFn product_type subject cfg with
        | none => rw [hplan] at heq; simp at heq
        | some pl0 =>
          rw [hplan] at heq
          simp at heq
      · obtain ⟨nt, hnt, heq⟩ := List.mem_filterMap.mp hR
        by_cases hpt : nt = product_type
        · rw [if_pos hpt] at heq
          simp only [Option.some.injEq, Prod.mk.injEq] at heq
          exact ⟨hpt ▸ hnt, heq.2.symm⟩
        · rw [if_neg hpt] at heq
          exact absurd heq (by simp)
    · rintro ⟨hnat, hpl⟩
      rw [hceq]
      refine List.mem_append.mpr (Or.inr (List.mem_filterMap.mpr ⟨product_type, hnat, ?_⟩))
      rw [if_pos rfl, hpl]
  rcases cands with _ | ⟨⟨tag0, plan0⟩, rest⟩
  · refine ⟨by simp [schedPromise, hfast, hc], ?_, ?_⟩
    · constructor
      · intro h
        simp [schedPromise, hfast, hc] at h
      · intro h
        simp at h
    · intro tag plan h
      exact absurd h (by simp)
  · rcases rest with _ | ⟨c2, rest2⟩
    · refine ⟨?_, ?_, ?_⟩
      · constructor
        · intro h
          by_cases hcov : ∃ s ∈ plan0.subjects, s.primary = subject
          · rw [show schedPromise reg fuel st subject product_type cfg native =
                some (.ok
                  ({ mapper := (plan0.subjects.foldl
                       (registerStep product_type cfg plan0 (some subject)) (st.mapper, none)).1,
                     plansBy := updatePlansBy tag0 product_type plan0 st.plansBy },
                   (product_type, subject, cfg)))
                from by simp [schedPromise, hfast, hc, registerPromises_ok_of_cover hcov]] at h
            simp at h
          · rw [show schedPromise reg fuel st subject product_type cfg native =
                some (.error (.schedulingFailure product_type subject))
                from by simp [schedPromise, hfast, hc,
                  registerPromises_error_of_not_cover hcov]] at h
            simp at h
        · intro h
          exact absurd h (by simp)
      · constructor
        · intro h
          by_cases hcov : ∃ s ∈ plan0.subjects, s.primary = subject
          · rw [show schedPromise reg fuel st subject product_type cfg native =
                some (.ok
                  ({ mapper := (plan0.subjects.foldl
                       (registerStep product_type cfg plan0 (some subject)) (st.mapper, none)).1,
                     plansBy := updatePlansBy tag0 product_type plan0 st.plansBy },
                   (product_type, subject, cfg)))
                from by simp [schedPromise, hfast, hc, registerPromises_ok_of_cover hcov]] at h
            simp at h
          · rw [show schedPromise reg fuel st subject product_type cfg native =
                some (.error (.schedulingFailure product_type subject))
                from by simp [schedPromise, hfast, hc,
                  registerPromises_error_of_not_cover hcov]] at h
            simp at h
        · intro h
          simp at h
      · intro tag plan h
        simp only [List.cons.injEq, Prod.mk.injEq, and_true] at h
        obtain ⟨htag, hplan⟩ := h
        subst htag
        subst hplan
        constructor
        · intro hcov
          simp [schedPromise, hfast, hc, registerPromises_ok_of_cover hcov]
        · intro hncov
          simp [schedPromise, hfast, hc, registerPromises_error_of_not_cover hncov]
    · refine ⟨?_, ?_, ?_⟩
      · constructor
        · intro h
          simp [schedPromise, hfast, hc] at h
        · intro h
          simp at h
      · constructor
        · intro _
          simp
        · intro _
          simp [schedPromise, hfast, hc]
      · intro tag plan h
        simp at h

/-- The empty registry, for concrete scenarios with no planners. -/
def emptyRegistry : Registry := ⟨[]⟩

/-- Witness for C1 (spec scenario S1): with no planners and native product
`5`, requesting `5` for subject `99` yields the single synthetic candidate,
which is registered and its primary promise returned. -/
theorem promise_candidate_resolution_witness :
    schedPromise emptyRegistry 1 ⟨[], []⟩ 99 5 none [5] =
      some (.ok
        ({ mapper := [((5, 99, none), liftNativePlan 99 5)],
           plansBy := [((PlannerTag.noPlanner, 5), [liftNativePlan 99 5])] },
         (5, 99, none))) := by
  have h := @promise_candidate_resolution emptyRegistry 1 ⟨[], []⟩ 99 5 none [5]
    [(PlannerTag.noPlanner, liftNativePlan 99 5)] rfl rfl
  have h2 := (h.2.2.2 PlannerTag.noPlanner (liftNativePlan 99 5) rfl).1
    ⟨⟨99, none⟩, by simp [liftNativePlan], rfl⟩
  rw [h2]
  rfl

/-- C4: promising is idempotent — a successful `promise` leaves the mapper
with a plan for the promise's key, so any later call with the same subject,
product type and configuration returns the same (key-equal) promise through
the fast path, with the scheduler state unchanged and without consulting any
planner, any recursion budget, or the native products (the quantification
over a fresh registry, fuel and native list makes that explicit). -/
theorem promise_idempotent {reg : Registry} {fuel : Nat} {st st2 : SchedState}
    {subject : Nat} {product_type : PType} {cfg : Option Config} {native : List PType}
    {p : PromiseKey}
    (h : schedPromise reg fuel st subject product_type cfg native = some (.ok (st2, p))) :
    p = (product_type, subject, cfg) ∧
    ∀ (reg2 : Registry) (fuel2 : Nat) (native2 : List PType),
      schedPromise reg2 fuel2 st2 subject product_type cfg native2 = some (.ok (st2, p)) := by
  have key : p = (product_type, subject, cfg) ∧
      ∃ plan, mapperGet st2.mapper (product_type, subject, cfg) = some plan := by
    cases hm : mapperGet st.mapper (product_type, subject, cfg) with
    | some plan0 =>
      rw [show schedPromise reg fuel st subject product_type cfg native = some (.ok (st, (product_type, subject, cfg)))
          from by simp [schedPromise, hm]] at h
      simp only [Option.some.injEq, Except.ok.injEq, Prod.mk.injEq] at h
      exact ⟨h.2.symm, plan0, h.1 ▸ hm⟩
    | none =>
      cases hcp : candidatePlans reg fuel subject product_type cfg native with
      | none => rw [show schedPromise reg fuel st subject product_type cfg native = none
          from by simp [schedPromise, hm, hcp]] at h; exact absurd h (by simp)
      | some cands =>
        by_cases hlen : 1 < cands.length
        · rw [show schedPromise reg fuel st subject product_type cfg native =
              some (.error (.conflictingProducers product_type subject (cands.map Prod.fst)))
              from by simp [schedPromise, hm, hcp, hlen]] at h
          exact absurd h (by simp)
        · rcases hcands : cands with _ | ⟨⟨tag0, plan0⟩, rest⟩
          · rw [hcands] at hcp
            rw [show schedPromise reg fuel st subject product_type cfg native =
                some (.error (.noProducers product_type subject))
                from by simp [schedPromise, hm, hcp]] at h
            exact absurd h (by simp)
          · rw [hcands] at hcp hlen
            have hrest : rest = [] := by
              cases rest with
              | nil => rfl
              | cons a b => simp at hlen
            subst hrest
            by_cases hcov : ∃ s ∈ plan0.subjects, s.primary = subject
            · rw [show schedPromise reg fuel st subject product_type cfg native =
                  some (.ok
                    ({ mapper := (plan0.subjects.foldl
                         (registerStep product_type cfg plan0 (some subject)) (st.mapper, none)).1,
                       plansBy := updatePlansBy tag0 product_type plan0 st.plansBy },
                     (product_type, subject, cfg)))
                  from by
                    simp [schedPromise, hm, hcp, registerPromises_ok_of_cover hcov]] at h
              simp only [Option.some.injEq, Except.ok.injEq, Prod.mk.injEq] at h
              refine ⟨h.2.symm, plan0, ?_⟩
              rw [← h.1]
              simp only [registerFold_fst product_type cfg plan0 (some subject)
                plan0.subjects st.mapper none]
              obtain ⟨s, hs, hsp⟩ := hcov
              rw [if_pos ⟨s, hs, by rw [hsp]⟩]
            · rw [show schedPromise reg fuel st subject product_type cfg native =
                  some (.error (.schedulingFailure product_type subject))
                  from by
                    simp [schedPromise, hm, hcp, registerPromises_error_of_not_cover hcov]] at h
              exact absurd h (by simp)
  obtain ⟨hp, plan, hplan⟩ := key
  refine ⟨hp, fun reg2 fuel2 native2 => ?_⟩
  rw [hp]
  simp [schedPromise, hplan]

/-- A planner always applicable for output `10` (its DNF is a single empty
clause) whose plan covers the subject, for the C4 witness. -/
def samplePlanner : PlannerSpec :=
  ⟨1, [(10, [[]])], fun pt s _ => some ⟨.func 1, [⟨s, none⟩], .cons 0 (.leaf pt) .nil⟩⟩

/-- The registry of the single sample planner. -/
def sampleRegistry : Registry := ⟨[samplePlanner]⟩

/-- Witness for C4: after a first successful promise through the sample
planner, a second call — even against an empty registry with no fuel and no
native products — returns the same promise and state via the fast path. -/
theorem promise_idempotent_witness :
    schedPromise emptyRegistry 0
      ({ mapper := [((10, 99, none), ⟨.func 1, [⟨99, none⟩], .cons 0 (.leaf 10) .nil⟩)],
         plansBy := [((PlannerTag.planner 1, 10),
           [⟨.func 1, [⟨99, none⟩], .cons 0 (.leaf 10) .nil⟩])] })
      99 10 none [] =
      some (.ok
        ({ mapper := [((10, 99, none), ⟨.func 1, [⟨99, none⟩], .cons 0 (.leaf 10) .nil⟩)],
           plansBy := [((PlannerTag.planner 1, 10),
             [⟨.func 1, [⟨99, none⟩], .cons 0 (.leaf 10) .nil⟩])] },
         (10, 99, none))) := by
  have h := @promise_idempotent sampleRegistry 1 ⟨[], []⟩
    ⟨[((10, 99, none), ⟨.func 1, [⟨99, none⟩], .cons 0 (.leaf 10) .nil⟩)],
     [((PlannerTag.planner 1, 10), [⟨.func 1, [⟨99, none⟩], .cons 0 (.leaf 10) .nil⟩])]⟩
    99 10 none [] (10, 99, none) rfl
  exact h.2 emptyRegistry 0 []

/-! ## `ExecutionGraph.walk` (C6): supporting lemmas -/

/-- The promises of a normalized pair list are those of its values, in
order. -/
theorem promsOfPairsToIL : ∀ l : List (Nat × InputValue),
    iterPromisesL (pairsToIL l) = l.flatMap fun kv => iterPromisesV kv.2
  | [] => rfl
  | (k, v) :: rest => by
    simp [pairsToIL, iterPromisesL, iterPromisesV, promsOfPairsToIL rest]

/-- Key-ordered insertion permutes. -/
theorem insertByKey_perm (e : Nat × InputValue) :
    ∀ l, List.Perm (insertByKey e l) (e :: l)
  | [] => List.Perm.refl _
  | x :: xs => by
    rw [insertByKey]
    by_cases h : e.1 ≤ x.1
    · rw [if_pos h]
    · rw [if_neg h]
      exact ((insertByKey_perm e xs).cons x).trans (List.Perm.swap e x xs)

/-- Sorting mapping entries by key permutes them. -/
theorem sortByKey_perm : ∀ l, List.Perm (sortByKey l) l
  | [] => List.Perm.refl _
  | x :: xs => (insertByKey_perm x (sortByKey xs)).trans ((sortByKey_perm xs).cons x)

mutual
/-- `hashable` normalization preserves the set of promise leaves. -/
theorem normV_promises_mem : ∀ (v : InputValue) (k : PromiseKey),
    k ∈ iterPromisesV (normV v) ↔ k ∈ iterPromisesV v
  | .leaf _, k => Iff.rfl
  | .str _, k => Iff.rfl
  | .prom _, k => Iff.rfl
  | .mapping es, k => by
    rw [show normV (.mapping es) = .seqv (pairsToIL (sortByKey (normE es))) from rfl]
    rw [show iterPromisesV (.seqv (pairsToIL (sortByKey (normE es)))) =
        iterPromisesL (pairsToIL (sortByKey (normE es))) from rfl]
    rw [promsOfPairsToIL]
    rw [show iterPromisesV (.mapping es) = iterPromisesE es from rfl]
    constructor
    · intro hk
      obtain ⟨a, ha, hka⟩ := List.mem_flatMap.mp hk
      exact (normE_promises_mem es k).mp
        (List.mem_flatMap.mpr ⟨a, (sortByKey_perm (normE es)).mem_iff.mp ha, hka⟩)
    · intro hk
      obtain ⟨a, ha, hka⟩ := List.mem_flatMap.mp ((normE_promises_mem es k).mpr hk)
      exact List.mem_flatMap.mpr ⟨a, (sortByKey_perm (normE es)).mem_iff.mpr ha, hka⟩
  | .seqv vs, k => by
    rw [show normV (.seqv vs) = .seqv (normL vs) from rfl]
    exact normL_promises_mem vs k

/-- Entry-list normalization preserves the set of promise leaves. -/
theorem normE_promises_mem : ∀ (es : InputEntries) (k : PromiseKey),
    (k ∈ (normE es).flatMap fun kv => iterPromisesV kv.2) ↔ k ∈ iterPromisesE es
  | .nil, k => by simp [normE, iterPromisesE]
  | .cons key v rest, k => by
    have h1 := normV_promises_mem v k
    have h2 := normE_promises_mem rest k
    constructor
    · intro hk
      obtain ⟨a, ha, hka⟩ := List.mem_flatMap.mp hk
      rcases List.mem_cons.mp ha with heq | hmem
      · subst heq
        exact List.mem_append.mpr (Or.inl (h1.mp hka))
      · exact List.mem_append.mpr (Or.inr (h2.mp (List.mem_flatMap.mpr ⟨a, hmem, hka⟩)))
    · intro hk
      rcases List.mem_append.mp hk with hL | hR
      · exact List.mem_flatMap.mpr ⟨(key, normV v), List.mem_cons_self .., h1.mpr hL⟩
      · obtain ⟨a, ha, hka⟩ := List.mem_flatMap.mp (h2.mpr hR)
        exact List.mem_flatMap.mpr ⟨a, List.mem_cons_of_mem _ ha, hka⟩

/-- Sequence normalization preserves the set of promise leaves. -/
theorem normL_promises_mem : ∀ (vs : InputList) (k : PromiseKey),
    k ∈ iterPromisesL (normL vs) ↔ k ∈ iterPromisesL vs
  | .nil, k => Iff.rfl
  | .cons v rest, k => by
    have h1 := normV_promises_mem v k
    have h2 := normL_promises_mem rest k
    simp only [normL, iterPromisesL, List.mem_append, h1, h2]
end

/-- Plans equal under `Plan.__eq__` (equal `_key`s) have the same set of
promises: normalization sorts mapping entries, which permutes, never drops,
promise leaves. -/
theorem planPromises_of_planKey_eq {p q : Plan} (h : planKey p = planKey q) :
    ∀ k, k ∈ planPromises p ↔ k ∈ planPromises q := by
  intro k
  have h3 : normV (.mapping p.inputs) = normV (.mapping q.inputs) :=
    congrArg (fun t => t.2.2) h
  have hp := normV_promises_mem (.mapping p.inputs) k
  have hq := normV_promises_mem (.mapping q.inputs) k
  rw [planPromises, planPromises, List.mem_dedup, List.mem_dedup]
  rw [show iterPromisesE p.inputs = iterPromisesV (.mapping p.inputs) from rfl]
  rw [show iterPromisesE q.inputs = iterPromisesV (.mapping q.inputs) from rfl]
  rw [← hp, ← hq, h3]

/-- Membership reading of the seen-set test. -/
theorem seenHas_iff {s : List Plan} {p : Plan} :
    seenHas s p = true ↔ ∃ x ∈ s, planKey x = planKey p := by
  simp [seenHas, planEqb, List.any_eq_true]

/-- The seen-set test over an appended list. -/
theorem seenHas_append {a b : List Plan} {p : Plan} :
    seenHas (a ++ b) p = (seenHas a p || seenHas b p) := by
  simp [seenHas, List.any_append]

/-- The seen-set test depends only on membership. -/
theorem seenHas_ext {l1 l2 : List Plan} (h : ∀ x, x ∈ l1 ↔ x ∈ l2) (p : Plan) :
    seenHas l1 p = seenHas l2 p := by
  by_cases hp : ∃ x ∈ l1, planKey x = planKey p
  · obtain ⟨x, hx, hk⟩ := hp
    rw [seenHas_iff.mpr ⟨x, hx, hk⟩, seenHas_iff.mpr ⟨x, (h x).mp hx, hk⟩]
  · have h1 : seenHas l1 p = false := by
      cases hb : seenHas l1 p
      · rfl
      · exact absurd (seenHas_iff.mp hb) hp
    have h2 : seenHas l2 p = false := by
      cases hb : seenHas l2 p
      · rfl
      · obtain ⟨x, hx, hk⟩ := seenHas_iff.mp hb
        exact absurd ⟨x, (h x).mpr hx, hk⟩ hp
    rw [h1, h2]

/-- The post-order property, relative to the plans already yielded before
this suffix (`pre`): every promise of each yielded plan that resolves at all
resolves to a plan key-equal to one yielded earlier. -/
def PostRel (mapper : Mapper) : List (PromiseKey × Plan) → List Plan → Prop
  | [], _ => True
  | y :: rest, pre =>
    (∀ q ∈ planPromises y.2, ∀ dep, mapperGet mapper q = some dep →
      seenHas pre dep = true) ∧
    PostRel mapper rest (y.2 :: pre)

/-- Executable mirror of `PostRel` (used to refute and to state the claim's
ordering property on concrete walks). -/
def postOrderHolds (mapper : Mapper) : List (PromiseKey × Plan) → List Plan → Bool
  | [], _ => true
  | y :: rest, pre =>
    ((planPromises y.2).all fun q =>
      match mapperGet mapper q with
      | none => true
      | some dep => seenHas pre dep) &&
    postOrderHolds mapper rest (y.2 :: pre)

/-- The claim's ordering property of a finished walk: every plan is yielded
after (key-equal copies of) all plans that fulfil its promises. -/
def postOrderOk (mapper : Mapper) (ys : List (PromiseKey × Plan)) : Bool :=
  postOrderHolds mapper ys []

/-- `PostRel` transports along membership-equivalent prefixes. -/
theorem PostRel_ext {mapper : Mapper} :
    ∀ (ys : List (PromiseKey × Plan)) (pre1 pre2 : List Plan),
    (∀ x, x ∈ pre1 ↔ x ∈ pre2) → PostRel mapper ys pre1 → PostRel mapper ys pre2
  | [], _, _, _, _ => trivial
  | y :: rest, pre1, pre2, h, hpr => by
    refine ⟨fun q hq dep hdep => ?_, ?_⟩
    · rw [← seenHas_ext h dep]
      exact hpr.1 q hq dep hdep
    · refine PostRel_ext rest (y.2 :: pre1) (y.2 :: pre2) (fun x => ?_) hpr.2
      simp [h x]

/-- `PostRel` over an appended yield list. -/
theorem PostRel_append {mapper : Mapper} :
    ∀ (ys1 ys2 : List (PromiseKey × Plan)) (pre : List Plan),
    PostRel mapper ys1 pre →
    PostRel mapper ys2 ((ys1.map Prod.snd).reverse ++ pre) →
    PostRel mapper (ys1 ++ ys2) pre
  | [], ys2, pre, _, h2 => by simpa using h2
  | y :: rest, ys2, pre, h1, h2 => by
    refine ⟨h1.1, ?_⟩
    refine PostRel_append rest ys2 (y.2 :: pre) h1.2 ?_
    refine PostRel_ext ys2 _ _ (fun x => ?_) h2
    simp only [List.map_cons, List.reverse_cons, List.append_assoc, List.singleton_append]

/-- Dropping a prefix plan no dependency of the yields resolves to. -/
theorem PostRel_shrink {mapper : Mapper} {p0 : Plan} :
    ∀ (ys : List (PromiseKey × Plan)) (l1 l2 : List Plan),
    PostRel mapper ys (l1 ++ p0 :: l2) →
    (∀ y ∈ ys, ∀ q ∈ planPromises y.2, ∀ dep, mapperGet mapper q = some dep →
      planKey dep ≠ planKey p0) →
    PostRel mapper ys (l1 ++ l2)
  | [], _, _, _, _ => trivial
  | y :: rest, l1, l2, hpr, hnd => by
    refine ⟨fun q hq dep hdep => ?_, ?_⟩
    · have := hpr.1 q hq dep hdep
      obtain ⟨x, hx, hk⟩ := seenHas_iff.mp this
      rcases List.mem_append.mp hx with hL | hR
      · exact seenHas_iff.mpr ⟨x, List.mem_append.mpr (Or.inl hL), hk⟩
      · rcases List.mem_cons.mp hR with heq | hmem
        · exact absurd (heq ▸ hk).symm (hnd y (by simp) q hq dep hdep)
        · exact seenHas_iff.mpr ⟨x, List.mem_append.mpr (Or.inr hmem), hk⟩
    · have hpr2 : PostRel mapper rest ((y.2 :: l1) ++ p0 :: l2) := by
        rw [List.cons_append]
        exact hpr.2
      have := PostRel_shrink rest (y.2 :: l1) l2 hpr2
        (fun z hz => hnd z (List.mem_cons_of_mem _ hz))
      rw [List.cons_append] at this
      exact this

/-- `PostRel` implies its executable mirror. -/
theorem postOrderHolds_of_PostRel {mapper : Mapper} :
    ∀ (ys : List (PromiseKey × Plan)) (pre : List Plan),
    PostRel mapper ys pre → postOrderHolds mapper ys pre = true
  | [], _, _ => rfl
  | y :: rest, pre, hpr => by
    have h2 := postOrderHolds_of_PostRel rest (y.2 :: pre) hpr.2
    have h1 : ((planPromises y.2).all fun q =>
        match mapperGet mapper q with
        | none => true
        | some dep => seenHas pre dep) = true := by
      rw [List.all_eq_true]
      intro q hq
      cases hdep : mapperGet mapper q with
      | none => rfl
      | some dep => exact hpr.1 q hq dep hdep
    rw [postOrderHolds, h1, h2]
    rfl

/-- Promises reachable from the roots through the mapper: the roots, plus the
promises of any plan a reachable promise resolves to. -/
inductive ReachableP (mapper : Mapper) (roots : List PromiseKey) : PromiseKey → Prop where
  | root {pk : PromiseKey} : pk ∈ roots → ReachableP mapper roots pk
  | step {pk : PromiseKey} {plan : Plan} {q : PromiseKey} :
      ReachableP mapper roots pk → mapperGet mapper pk = some plan →
      q ∈ planPromises plan → ReachableP mapper roots q

/-- A rank function witnessing that the plan dependency graph is acyclic:
whenever a registered plan's promise resolves, the fulfilling plan ranks
strictly below it (ranks live on plan keys, respecting `Plan.__eq__`). -/
def RankedMapper (mapper : Mapper) (rk : PlanKey → Nat) : Prop :=
  ∀ pk plan q dep, mapperGet mapper pk = some plan → q ∈ planPromises plan →
    mapperGet mapper q = some dep → rk (planKey dep) < rk (planKey plan)

/-- The invariant a completed (partial) walk establishes, relative to the
promises it started from (`startPks`) and the seen-set it started with. -/
structure WalkInv (mapper : Mapper) (rk : PlanKey → Nat) (startPks : List PromiseKey)
    (seen : List Plan) (ys : List (PromiseKey × Plan)) (seen2 : List Plan) : Prop where
  seenChar : ∀ p : Plan, p ∈ seen2 ↔ p ∈ ys.map Prod.snd ∨ p ∈ seen
  keysNodup : (ys.map fun y => planKey y.2).Nodup
  fresh : ∀ y ∈ ys, seenHas seen y.2 = false
  fromMapper : ∀ y ∈ ys, mapperGet mapper y.1 = some y.2
  startResolved : ∀ pk ∈ startPks, ∃ plan, mapperGet mapper pk = some plan
  startSeen : ∀ pk ∈ startPks, ∀ plan, mapperGet mapper pk = some plan →
    seenHas seen2 plan = true
  rankBound : ∀ y ∈ ys, ∃ pk ∈ startPks, ∃ pl, mapperGet mapper pk = some pl ∧
    rk (planKey y.2) ≤ rk (planKey pl)
  resolved : ∀ y ∈ ys, ∀ q ∈ planPromises y.2, ∃ dep, mapperGet mapper q = some dep
  postRel : PostRel mapper ys seen

/-- Promise-list walks preserve the invariant (given that single-promise
walks do). -/
theorem walkPromisesF_inv {mapper : Mapper} {rk : PlanKey → Nat}
    (f : PromiseKey → List Plan → Option (List (PromiseKey × Plan) × List Plan))
    (hf : ∀ pk seen ys seen2, f pk seen = some (ys, seen2) →
      WalkInv mapper rk [pk] seen ys seen2) :
    ∀ (pks : List PromiseKey) (seen : List Plan) ys seen2,
    walkPromisesF f pks seen = some (ys, seen2) → WalkInv mapper rk pks seen ys seen2 := by
  intro pks
  induction pks with
  | nil =>
    intro seen ys seen2 h
    simp only [walkPromisesF, Option.some.injEq, Prod.mk.injEq] at h
    obtain ⟨h1, h2⟩ := h
    subst h1
    subst h2
    exact ⟨fun p => by simp, by simp, by simp, by simp, by simp, by simp, by simp, by simp,
      trivial⟩
  | cons pk rest ih =>
    intro seen ys seen2 h
    cases hf1 : f pk seen with
    | none => simp [walkPromisesF, hf1] at h
    | some v1 =>
      obtain ⟨ys1, seen1⟩ := v1
      cases hrest : walkPromisesF f rest seen1 with
      | none => simp [walkPromisesF, hf1, hrest] at h
      | some v2 =>
        obtain ⟨ys2, seen2a⟩ := v2
        simp only [walkPromisesF, hf1, hrest, Option.some.injEq, Prod.mk.injEq] at h
        obtain ⟨h1, h2⟩ := h
        subst h1
        subst h2
        have I1 := hf pk seen ys1 seen1 hf1
        have I2 := ih seen1 ys2 seen2a hrest
        refine ⟨?_, ?_, ?_, ?_, ?_, ?_, ?_, ?_, ?_⟩
        · intro p
          rw [I2.seenChar p, I1.seenChar p]
          simp only [List.map_append, List.mem_append]
          tauto
        · rw [List.map_append]
          rw [List.nodup_append]
          refine ⟨I1.keysNodup, I2.keysNodup, ?_⟩
          intro k hk1 hk2
          obtain ⟨y1, hy1, hky1⟩ := List.mem_map.mp hk1
          obtain ⟨y2, hy2, hky2⟩ := List.mem_map.mp hk2
          have hy1s : y1.2 ∈ seen1 :=
            (I1.seenChar y1.2).mpr (Or.inl (List.mem_map.mpr ⟨y1, hy1, rfl⟩))
          have := I2.fresh y2 hy2
          rw [seenHas_iff.mpr ⟨y1.2, hy1s, by rw [hky1, hky2]⟩] at this
          exact Bool.noConfusion this
        · intro y hy
          rcases List.mem_append.mp hy with hL | hR
          · exact I1.fresh y hL
          · cases hb : seenHas seen y.2
            · rfl
            · obtain ⟨x, hx, hk⟩ := seenHas_iff.mp hb
              have hx1 : x ∈ seen1 := (I1.seenChar x).mpr (Or.inr hx)
              have := I2.fresh y hR
              rw [seenHas_iff.mpr ⟨x, hx1, hk⟩] at this
              exact Bool.noConfusion this
        · intro y hy
          rcases List.mem_append.mp hy with hL | hR
          · exact I1.fromMapper y hL
          · exact I2.fromMapper y hR
        · intro pk2 hpk
          rcases List.mem_cons.mp hpk with heq | hmem
          · subst heq
            exact I1.startResolved pk2 (by simp)
          · exact I2.startResolved pk2 hmem
        · intro pk2 hpk plan hplan
          rcases List.mem_cons.mp hpk with heq | hmem
          · subst heq
            obtain ⟨x, hx, hk⟩ := seenHas_iff.mp (I1.startSeen pk2 (by simp) plan hplan)
            exact seenHas_iff.mpr ⟨x, (I2.seenChar x).mpr (Or.inr hx), hk⟩
          · exact I2.startSeen pk2 hmem plan hplan
        · intro y hy
          rcases List.mem_append.mp hy with hL | hR
          · obtain ⟨pk2, hpk2, pl, hpl, hle⟩ := I1.rankBound y hL
            rcases List.mem_singleton.mp hpk2 with rfl
            exact ⟨pk2, by simp, pl, hpl, hle⟩
          · obtain ⟨pk2, hpk2, pl, hpl, hle⟩ := I2.rankBound y hR
            exact ⟨pk2, List.mem_cons_of_mem _ hpk2, pl, hpl, hle⟩
        · intro y hy
          rcases List.mem_append.mp hy with hL | hR
          · exact I1.resolved y hL
          · exact I2.resolved y hR
        · refine PostRel_append ys1 ys2 seen I1.postRel ?_
          refine PostRel_ext ys2 seen1 _ (fun x => ?_) I2.postRel
          rw [I1.seenChar x]
          simp only [List.mem_append, List.mem_reverse]

/-- A single-promise walk establishes the invariant, by induction on the
recursion budget (the rank hypothesis rules out back edges into the plan
being visited). -/
theorem walkPlan_inv {mapper : Mapper} {rk : PlanKey → Nat}
    (hrank : RankedMapper mapper rk) :
    ∀ (fuel : Nat) (pk : PromiseKey) (seen : List Plan) ys seen2,
    walkPlan mapper fuel pk seen = some (ys, seen2) → WalkInv mapper rk [pk] seen ys seen2 := by
  intro fuel
  induction fuel with
  | zero => intro pk seen ys seen2 h; simp [walkPlan] at h
  | succ n ihf =>
    intro pk seen ys seen2 h
    cases hget : mapperGet mapper pk with
    | none => simp [walkPlan, hget] at h
    | some plan =>
      cases hseen : seenHas seen plan with
      | true =>
        simp only [walkPlan, hget, hseen, if_true, ite_true, Option.some.injEq,
          Prod.mk.injEq] at h
        obtain ⟨h1, h2⟩ := h
        subst h1
        subst h2
        refine ⟨fun p => by simp, by simp, by simp, by simp, ?_, ?_, by simp, by simp, trivial⟩
        · intro pk2 hpk
          rcases List.mem_singleton.mp hpk with rfl
          exact ⟨plan, hget⟩
        · intro pk2 hpk plan2 hplan2
          rcases List.mem_singleton.mp hpk with rfl
          rw [hget] at hplan2
          injection hplan2 with hplan2
          rw [← hplan2]
          exact hseen
      | false =>
        cases hch : walkPromisesF (walkPlan mapper n) (planPromises plan) (plan :: seen) with
        | none => simp [walkPlan, hget, hseen, hch] at h
        | some vc =>
          obtain ⟨ysc, seenc⟩ := vc
          simp only [walkPlan, hget, hseen, if_false, Bool.false_eq_true, ite_false, hch,
            Option.some.injEq, Prod.mk.injEq] at h
          obtain ⟨h1, h2⟩ := h
          subst h1
          subst h2
          have IC := walkPromisesF_inv (walkPlan mapper n)
            (fun pk0 s0 y0 s02 h0 => ihf pk0 s0 y0 s02 h0)
            (planPromises plan) (plan :: seen) ysc seenc hch
          have hstrict : ∀ y ∈ ysc, rk (planKey y.2) < rk (planKey plan) := by
            intro y hy
            obtain ⟨q, hq, pl, hpl, hle⟩ := IC.rankBound y hy
            exact lt_of_le_of_lt hle (hrank pk plan q pl hget hq hpl)
          refine ⟨?_, ?_, ?_, ?_, ?_, ?_, ?_, ?_, ?_⟩
          · intro p
            rw [IC.seenChar p]
            simp only [List.map_append, List.mem_append, List.map_cons, List.map_nil,
              List.mem_singleton, List.mem_cons]
            tauto
          · rw [List.map_append, List.nodup_append]
            refine ⟨IC.keysNodup, by simp, ?_⟩
            intro k hk1 hk2
            obtain ⟨y1, hy1, hky1⟩ := List.mem_map.mp hk1
            simp only [List.map_cons, List.map_nil, List.mem_singleton] at hk2
            have := hstrict y1 hy1
            rw [hky1, hk2] at this
            exact absurd this (lt_irrefl _)
          · intro y hy
            rcases List.mem_append.mp hy with hL | hR
            · have := IC.fresh y hL
              rw [show seenHas (plan :: seen) y.2 =
                  (planEqb plan y.2 || seenHas seen y.2) from rfl] at this
              exact (Bool.or_eq_false_iff.mp this).2
            · simp only [List.mem_singleton] at hR
              subst hR
              exact hseen
          · intro y hy
            rcases List.mem_append.mp hy with hL | hR
            · exact IC.fromMapper y hL
            · simp only [List.mem_singleton] at hR
              subst hR
              exact hget
          · intro pk2 hpk
            rcases List.mem_singleton.mp hpk with rfl
            exact ⟨plan, hget⟩
          · intro pk2 hpk plan2 hplan2
            rcases List.mem_singleton.mp hpk with rfl
            rw [hget] at hplan2
            injection hplan2 with hplan2
            rw [← hplan2]
            exact seenHas_iff.mpr ⟨plan, (IC.seenChar plan).mpr (Or.inr (by simp)), rfl⟩
          · intro y hy
            rcases List.mem_append.mp hy with hL | hR
            · exact ⟨pk, by simp, plan, hget, le_of_lt (hstrict y hL)⟩
            · simp only [List.mem_singleton] at hR
              subst hR
              exact ⟨pk, by simp, plan, hget, le_refl _⟩
          · intro y hy
            rcases List.mem_append.mp hy with hL | hR
            · exact IC.resolved y hL
            · simp only [List.mem_singleton] at hR
              subst hR
              exact fun q hq => IC.startResolved q hq
          · refine PostRel_append ysc [(pk, plan)] seen ?_ ?_
            · have hnd : ∀ y ∈ ysc, ∀ q ∈ planPromises y.2, ∀ dep,
                  mapperGet mapper q = some dep → planKey dep ≠ planKey plan := by
                intro y hy q hq dep hdep
                have h1 := hrank y.1 y.2 q dep (IC.fromMapper y hy) hq hdep
                have h2 := hstrict y hy
                intro hkeq
                rw [hkeq] at h1
                exact absurd (lt_trans h1 h2) (lt_irrefl _)
              have hpr0 : PostRel mapper ysc ([] ++ plan :: seen) := by
                simpa using IC.postRel
              have hshr := @PostRel_shrink mapper plan ysc [] seen hpr0 hnd
              simpa using hshr
            · refine ⟨?_, trivial⟩
              intro q hq dep hdep
              obtain ⟨x, hx, hk⟩ := seenHas_iff.mp (IC.startSeen q hq dep hdep)
              rcases (IC.seenChar x).mp hx with hxy | hxs
              · exact seenHas_iff.mpr
                  ⟨x, List.mem_append.mpr (Or.inl (List.mem_reverse.mpr hxy)), hk⟩
              · rcases List.mem_cons.mp hxs with heq | hmem
                · have := hrank pk plan q dep hget hq hdep
                  rw [← hk, heq] at this
                  exact absurd this (lt_irrefl _)
                · exact seenHas_iff.mpr ⟨x, List.mem_append.mpr (Or.inr hmem), hk⟩

/-- Every resolved dependency of a yielded plan is key-present among all the
yielded plans together with the prefix. -/
theorem PostRel_dep_mem {mapper : Mapper} :
    ∀ (ys : List (PromiseKey × Plan)) (pre : List Plan), PostRel mapper ys pre →
    ∀ y ∈ ys, ∀ q ∈ planPromises y.2, ∀ dep, mapperGet mapper q = some dep →
    seenHas (ys.map Prod.snd ++ pre) dep = true
  | [], _, _, _, hy, _, _, _, _ => absurd hy (List.not_mem_nil _)
  | y0 :: rest, pre, hpr, y, hy, q, hq, dep, hdep => by
    rcases List.mem_cons.mp hy with heq | hmem
    · subst heq
      obtain ⟨x, hx, hk⟩ := seenHas_iff.mp (hpr.1 q hq dep hdep)
      exact seenHas_iff.mpr ⟨x, List.mem_append.mpr (Or.inr hx), hk⟩
    · have := PostRel_dep_mem rest (y0.2 :: pre) hpr.2 y hmem q hq dep hdep
      obtain ⟨x, hx, hk⟩ := seenHas_iff.mp this
      refine seenHas_iff.mpr ⟨x, ?_, hk⟩
      rcases List.mem_append.mp hx with hL | hR
      · exact List.mem_append.mpr (Or.inl (List.mem_cons_of_mem _ hL))
      · rcases List.mem_cons.mp hR with he | hm
        · exact List.mem_append.mpr (Or.inl (he ▸ List.mem_cons_self ..))
        · exact List.mem_append.mpr (Or.inr hm)

/-- C6 (amended): for an execution graph whose plan dependency graph is
acyclic (it admits a rank function strictly decreasing along promise edges —
invariant 5 of the specification), a completed walk yields plans pairwise
distinct under structural plan equality, in post-order (every plan after all
plans fulfilling its promises), covering every plan reachable from the root
promises, each yielded against the promise that resolves to it. -/
theorem walk_postorder_complete {mapper : Mapper} {rk : PlanKey → Nat} {fuel : Nat}
    {roots : List PromiseKey} {ys : List (PromiseKey × Plan)}
    (hrank : RankedMapper mapper rk)
    (hw : egWalk mapper fuel roots = some ys) :
    (ys.map fun y => planKey y.2).Nodup ∧
    postOrderOk mapper ys = true ∧
    (∀ y ∈ ys, mapperGet mapper y.1 = some y.2) ∧
    (∀ q, ReachableP mapper roots q →
      ∃ dep, mapperGet mapper q = some dep ∧ ∃ z ∈ ys, planKey z.2 = planKey dep) := by
  obtain ⟨seenF, hwp⟩ : ∃ seenF,
      walkPromisesF (walkPlan mapper fuel) roots [] = some (ys, seenF) := by
    rw [egWalk] at hw
    cases hwp : walkPromisesF (walkPlan mapper fuel) roots [] with
    | none => rw [hwp] at hw; simp at hw
    | some v =>
      obtain ⟨ys0, s0⟩ := v
      rw [hwp] at hw
      simp at hw
      exact ⟨s0, by rw [hw]⟩
  have Inv := walkPromisesF_inv (walkPlan mapper fuel)
    (fun pk s y s2 h => walkPlan_inv hrank fuel pk s y s2 h) roots [] ys seenF hwp
  refine ⟨Inv.keysNodup, postOrderHolds_of_PostRel ys [] Inv.postRel, Inv.fromMapper, ?_⟩
  have hseenF : ∀ p, p ∈ seenF ↔ p ∈ ys.map Prod.snd := by
    intro p
    rw [Inv.seenChar p]
    simp
  intro q hreach
  induction hreach with
  | root hmem =>
    obtain ⟨plan, hplan⟩ := Inv.startResolved _ hmem
    obtain ⟨x, hx, hk⟩ := seenHas_iff.mp (Inv.startSeen _ hmem plan hplan)
    obtain ⟨z, hz, hzp⟩ := List.mem_map.mp ((hseenF x).mp hx)
    exact ⟨plan, hplan, z, hz, by rw [hzp]; exact hk⟩
  | step hre hget hqmem ih =>
    obtain ⟨dep, hdep, z, hz, hkz⟩ := ih
    rename_i pk0 plan0 q0 
    have hpd : plan0 = dep := by
      rw [hget] at hdep
      injection hdep
    have hq2 : q0 ∈ planPromises z.2 :=
      (planPromises_of_planKey_eq hkz q0).mpr (by rw [← hpd] at hkz ⊢; exact hqmem)
    obtain ⟨dep2, hdep2⟩ := Inv.resolved z hz q0 hq2
    have hmem2 := PostRel_dep_mem ys [] Inv.postRel z hz q0 hq2 dep2 hdep2
    obtain ⟨x, hx, hk⟩ := seenHas_iff.mp hmem2
    rw [List.append_nil] at hx
    obtain ⟨z2, hz2, hz2p⟩ := List.mem_map.mp hx
    exact ⟨dep2, hdep2, z2, hz2, by rw [hz2p]; exact hk⟩

/-- The two mutually dependent plans of the C6 counterexample. -/
def cyclePlanOne : Plan := ⟨.func 1, [⟨1, none⟩], .cons 0 (.prom (2, 2, none)) .nil⟩

/-- Second plan of the cycle. -/
def cyclePlanTwo : Plan := ⟨.func 2, [⟨2, none⟩], .cons 0 (.prom (1, 1, none)) .nil⟩

/-- A `ProductMapper` whose two plans each promise the other's product: every
promise resolves, yet the dependency graph is a two-cycle. -/
def cycleMapper : Mapper := [((1, 1, none), cyclePlanOne), ((2, 2, none), cyclePlanTwo)]

/-- Decidable strengthening of the claim hypothesis "every reachable promise
resolves": every root and every promise of any registered plan resolves. -/
def mapperResolvesAll (mapper : Mapper) (roots : List PromiseKey) : Bool :=
  roots.all (fun q => (mapperGet mapper q).isSome) &&
  mapper.all fun e => (planPromises e.2).all fun q => (mapperGet mapper q).isSome

/-- C6 counterexample: on the two-cycle mapper every promise resolves and the
walk completes, yielding the second plan before the first — but the first
plan fulfils a promise of the second, so the claimed post-order property
("every plan is yielded after all plans that fulfil its promises") is false
as stated; it needs the acyclicity of invariant 5. -/
theorem walk_postorder_counterexample :
    mapperResolvesAll cycleMapper [(1, 1, none)] = true ∧
    egWalk cycleMapper 5 [(1, 1, none)] =
      some [((2, 2, none), cyclePlanTwo), ((1, 1, none), cyclePlanOne)] ∧
    (1, 1, none) ∈ planPromises cyclePlanTwo ∧
    mapperGet cycleMapper (1, 1, none) = some cyclePlanOne ∧
    postOrderOk cycleMapper [((2, 2, none), cyclePlanTwo), ((1, 1, none), cyclePlanOne)] =
      false := by
  refine ⟨by decide, by decide, by decide, by decide, by decide⟩

/-- The two plans of the acyclic C6 witness graph. -/
def acycPlanLeaf : Plan := ⟨.func 2, [⟨2, none⟩], .nil⟩

/-- A plan depending on the leaf plan's product. -/
def acycPlanRoot : Plan := ⟨.func 1, [⟨1, none⟩], .cons 0 (.prom (2, 2, none)) .nil⟩

/-- An acyclic mapper: the root plan depends on the leaf plan. -/
def acycMapper : Mapper := [((1, 1, none), acycPlanRoot), ((2, 2, none), acycPlanLeaf)]

/-- Rank function for the acyclic witness mapper. -/
def acycRank (k : PlanKey) : Nat :=
  if k = planKey acycPlanLeaf then 0 else 1

/-- Witness for the amended C6 theorem: on the acyclic two-plan graph the
walk yields the leaf plan first and the root plan second, with distinct keys
and the post-order property holding. -/
theorem walk_postorder_complete_witness :
    (([((2, 2, none), acycPlanLeaf), ((1, 1, none), acycPlanRoot)].map
      fun (y : PromiseKey × Plan) => planKey y.2).Nodup) ∧
    postOrderOk acycMapper [((2, 2, none), acycPlanLeaf), ((1, 1, none), acycPlanRoot)] =
      true := by
  have hrank : RankedMapper acycMapper acycRank := by
    intro pk plan q dep hget hq hdep
    by_cases h1 : ((1, 1, none) : PromiseKey) = pk
    · rw [← h1] at hget
      rw [show mapperGet acycMapper (1, 1, none) = some acycPlanRoot from rfl] at hget
      injection hget with hget
      rw [← hget] at hq
      rw [show planPromises acycPlanRoot = [(2, 2, none)] from rfl] at hq
      rcases List.mem_singleton.mp hq with rfl
      rw [show mapperGet acycMapper (2, 2, none) = some acycPlanLeaf from rfl] at hdep
      injection hdep with hdep
      rw [← hdep, ← hget]
      decide
    · by_cases h2 : ((2, 2, none) : PromiseKey) = pk
      · rw [← h2] at hget
        rw [show mapperGet acycMapper (2, 2, none) = some acycPlanLeaf from rfl] at hget
        injection hget with hget
        rw [← hget] at hq
        rw [show planPromises acycPlanLeaf = [] from rfl] at hq
        exact absurd hq (List.not_mem_nil _)
      · rw [show mapperGet acycMapper pk =
            (if ((1, 1, none) : PromiseKey) = pk then some acycPlanRoot
             else if ((2, 2, none) : PromiseKey) = pk then some acycPlanLeaf else none)
            from rfl, if_neg h1, if_neg h2] at hget
        exact absurd hget (by simp)
  have h := @walk_postorder_complete acycMapper acycRank 3 [(1, 1, none)]
    [((2, 2, none), acycPlanLeaf), ((1, 1, none), acycPlanRoot)] hrank
    (show egWalk acycMapper 3 [(1, 1, none)] =
      some [((2, 2, none), acycPlanLeaf), ((1, 1, none), acycPlanRoot)] from rfl)
  exact ⟨h.1, h.2.1⟩

end PantsScheduler
